import Mathlib

/-!
Verification of the `kvfifo` container (`src/kvfifo.h`, two variants of the
same header).

Shallow embedding.  The container stores

  * `queue : std::list<std::pair<K, V>>`   — the entry queue, and
  * `iters : std::map<K, std::list<iterator>>` — the key index, mapping each
    key to the queue iterators of its entries, front-to-back,

behind `shared_ptr`s, plus a per-instance `modifiable_from_outside` flag.

We model a `std::list` node (an iterator target) by a natural-number id that
plays the role of the node's address: splicing and erasing identify nodes by
id, and `nextId` supplies fresh ids (every id in the queue is below it).  The
`std::map` is modelled by an association list sorted strictly by key; the key
index stores buckets of node ids.  `shared_ptr` sharing between the two
instances of a copy pair is modelled by the `World` type further below.
-/

set_option autoImplicit false

namespace Kvfifo

variable {K V : Type} [LinearOrder K]

/-- One node of the entry queue: `id` models the node's address (stable under
splice, unique within a state), `key`/`val` are the stored pair. -/
structure Entry (K V : Type) where
  id : Nat
  key : K
  val : V
deriving DecidableEq

/-- Errors thrown by the container (`std::invalid_argument` with the two
messages of the source). -/
inductive Err where
  | emptyContainer
  | keyNotFound
deriving DecidableEq

/-- Model of `kv_map::find`: first entry of the association list with the
given key (on the sorted lists maintained by the container this agrees with
`std::map::find`). -/
def mapFind : List (K × List Nat) → K → Option (List Nat)
  | [], _ => none
  | p :: rest, k => if k = p.1 then some p.2 else mapFind rest k

/-- Model of `iters->try_emplace(k, {})` (and of `emplace` in the first
variant, which behaves identically here): insert an empty bucket at the
sorted position if the key is absent; return the updated map and the
`key_created` flag. -/
def tryEmplace : List (K × List Nat) → K → List (K × List Nat) × Bool
  | [], k => ([(k, [])], true)
  | p :: rest, k =>
    if k < p.1 then ((k, []) :: p :: rest, true)
    else if k = p.1 then (p :: rest, false)
    else (p :: (tryEmplace rest k).1, (tryEmplace rest k).2)

/-- Model of `it->second.push_back(i)` on the bucket of `k` (no-op if the key
is absent, which the source never does). -/
def bucketPushBack : List (K × List Nat) → K → Nat → List (K × List Nat)
  | [], _, _ => []
  | p :: rest, k, i =>
    if k = p.1 then (p.1, p.2 ++ [i]) :: rest else p :: bucketPushBack rest k i

/-- Model of `iters->erase(it)` for the bucket of key `k`. -/
def mapEraseKey : List (K × List Nat) → K → List (K × List Nat)
  | [], _ => []
  | p :: rest, k => if k = p.1 then rest else p :: mapEraseKey rest k

/-- Replace the bucket stored for key `k` (no-op if the key is absent).  Used
to model in-place mutation of `it->second`. -/
def mapSetBucket : List (K × List Nat) → K → List Nat → List (K × List Nat)
  | [], _, _ => []
  | p :: rest, k, b =>
    if k = p.1 then (p.1, b) :: rest else p :: mapSetBucket rest k b

/-- The container state shared through the two `shared_ptr`s: entry queue,
key index, and the next fresh node id (a modelling device for addresses). -/
structure KvState (K V : Type) where
  queue : List (Entry K V)
  iters : List (K × List Nat)
  nextId : Nat
deriving DecidableEq

/-- The default-constructed, empty container state. -/
def emptyKv : KvState K V := ⟨[], [], 0⟩

/-- `size()` is the length of the entry queue. -/
def size (s : KvState K V) : Nat := s.queue.length

/-- `count(k)`: bucket length, or 0 when `find` fails. -/
def count (s : KvState K V) (k : K) : Nat :=
  match mapFind s.iters k with
  | none => 0
  | some b => b.length

/-- The queue positions (node ids) of the entries with key `k`, front to
back.  Invariant states store exactly this list in the bucket of `k`. -/
def bucketOf (q : List (Entry K V)) (k : K) : List Nat :=
  (q.filter fun e => decide (e.key = k)).map fun e => e.id

/-- Model of `queue->erase(it)` where `it` is the node with id `i` (node ids
are unique in every state the container builds, so filtering on the id
removes exactly that node). -/
def eraseId (q : List (Entry K V)) (i : Nat) : List (Entry K V) :=
  q.filter fun e => decide (e.id ≠ i)

/-- Model of `queue->splice(queue->end(), *queue, it)` for the node with id
`i`: unlink that node and relink it at the back. -/
def spliceToEnd (q : List (Entry K V)) (i : Nat) : List (Entry K V) :=
  (q.filter fun e => decide (e.id ≠ i)) ++ (q.filter fun e => decide (e.id = i))

/-- Dereference the iterator with node id `i` in the queue. -/
def entryById (q : List (Entry K V)) (i : Nat) : Option (Entry K V) :=
  q.find? fun e => decide (e.id = i)

/-- `push(k, v)`, success path (the exception behaviour is modelled by
`pushV1`/`pushV2` below): append a fresh node at the back of the queue,
`try_emplace` the key, push the new node id at the back of its bucket. -/
def push (s : KvState K V) (k : K) (v : V) : KvState K V :=
  let em := tryEmplace s.iters k
  ⟨s.queue ++ [⟨s.nextId, k, v⟩], bucketPushBack em.1 k s.nextId, s.nextId + 1⟩

/-- `pop(k)` on exclusively owned storage (both variants agree there; the
shared-storage behaviour of each variant lives in the `World` model below):
find the bucket, erase its front node from the queue, pop the bucket, erase
the key when the bucket empties. -/
def popKey (s : KvState K V) (k : K) : Except Err (KvState K V) :=
  match mapFind s.iters k with
  | none => .error .keyNotFound
  | some [] => .ok s
    -- an empty bucket never occurs in states the container builds; the
    -- source would call front() on an empty std::list here (undefined)
  | some (i :: rest) =>
    .ok ⟨eraseId s.queue i,
         if rest = [] then mapEraseKey s.iters k else mapSetBucket s.iters k rest,
         s.nextId⟩

/-- `pop()`: empty check, then `pop(queue->front().first)`. -/
def popFront (s : KvState K V) : Except Err (KvState K V) :=
  match s.queue with
  | [] => .error .emptyContainer
  | e :: _ => popKey s e.key

/-- `move_to_back(k)` on exclusively owned storage: splice every node listed
in the bucket, in bucket order, to the back of the queue.  The key index is
not touched (list iterators survive splicing). -/
def moveToBack (s : KvState K V) (k : K) : Except Err (KvState K V) :=
  match mapFind s.iters k with
  | none => .error .keyNotFound
  | some b => .ok ⟨b.foldl spliceToEnd s.queue, s.iters, s.nextId⟩

/-- `front() const`: key and value of the front entry. -/
def frontC (s : KvState K V) : Except Err (K × V) :=
  match s.queue with
  | [] => .error .emptyContainer
  | e :: _ => .ok (e.key, e.val)

/-- `back() const`: key and value of the back entry. -/
def backC (s : KvState K V) : Except Err (K × V) :=
  match s.queue.getLast? with
  | none => .error .emptyContainer
  | some e => .ok (e.key, e.val)

/-- `first(k) const`: dereference the front iterator of `k`'s bucket.  The
two inner `none` branches are unreachable in states the container builds
(the source dereferences without checking). -/
def firstC (s : KvState K V) (k : K) : Except Err (K × V) :=
  match mapFind s.iters k with
  | none => .error .keyNotFound
  | some b =>
    match b.head? with
    | none => .error .keyNotFound
    | some i =>
      match entryById s.queue i with
      | none => .error .keyNotFound
      | some e => .ok (e.key, e.val)

/-- `last(k) const`: dereference the back iterator of `k`'s bucket. -/
def lastC (s : KvState K V) (k : K) : Except Err (K × V) :=
  match mapFind s.iters k with
  | none => .error .keyNotFound
  | some b =>
    match b.getLast? with
    | none => .error .keyNotFound
    | some i =>
      match entryById s.queue i with
      | none => .error .keyNotFound
      | some e => .ok (e.key, e.val)

/-- The ascending key view bounded by `k_begin()`/`k_end()`:
`std::ranges::keys_view` over the key index yields the map's keys in map
(ascending) order. -/
def kKeys (s : KvState K V) : List K := s.iters.map Prod.fst

/-- Model of `copy_if_needed` / `create_copy`'s clone: copy the queue into
fresh nodes (fresh ids, numbered from 0 in queue order), copy the key index,
then for every new node in queue order pop the front of its key's bucket
(an iterator into the old queue) and push the new node's id at the back —
exactly the rebuild loop of the source. -/
def renumberFrom (base : Nat) : List (Entry K V) → List (Entry K V)
  | [] => []
  | e :: rest => ⟨base, e.key, e.val⟩ :: renumberFrom (base + 1) rest

/-- One iteration of the clone's rebuild loop for a node with key `k` and new
id `i`: `find` the bucket, `pop_front`, `push_back i`.  The `none` branch is
unreachable (every queue key is in the map). -/
def rebuildStep (m : List (K × List Nat)) (k : K) (i : Nat) : List (K × List Nat) :=
  match mapFind m k with
  | none => m
  | some b => mapSetBucket m k (b.tail ++ [i])

/-- The deep clone built by `copy_if_needed` (first variant) and
`create_copy` (second variant). -/
def cloneState (s : KvState K V) : KvState K V :=
  let q := renumberFrom 0 s.queue
  ⟨q, q.foldl (fun m e => rebuildStep m e.key e.id) s.iters, s.queue.length⟩

/-- Structural invariant of the container state (spec I2/I4 plus the
modelling bookkeeping for node ids): every stored bucket is the non-empty
list of queue positions of its key, every queue key has a bucket, the map is
sorted strictly by key, node ids are unique and below `nextId`. -/
def Inv (s : KvState K V) : Prop :=
  (∀ p ∈ s.iters, p.2 = bucketOf s.queue p.1 ∧ p.2 ≠ []) ∧
  (∀ e ∈ s.queue, e.key ∈ s.iters.map Prod.fst) ∧
  (s.iters.map Prod.fst).Sorted (· < ·) ∧
  (s.queue.map fun e => e.id).Nodup ∧
  (∀ e ∈ s.queue, e.id < s.nextId)

instance (s : KvState K V) : Decidable (Inv s) := by
  unfold Inv; infer_instance

/-- Observable equality: same entry sequence (keys and values, in order),
same size, same per-key counts, same key set of the index. -/
def ObsEq (s t : KvState K V) : Prop :=
  (s.queue.map fun e => (e.key, e.val)) = (t.queue.map fun e => (e.key, e.val)) ∧
  size s = size t ∧
  (∀ k, count s k = count t k) ∧
  s.iters.map Prod.fst = t.iters.map Prod.fst

/-!
Two-instance world: instances `A` and `B` either share one container state
through their `shared_ptr`s (`use_count == 2`) or own separate states
(`use_count == 1` each).  `eA`/`eB` are the per-instance
`modifiable_from_outside` flags.
-/

/-- Which of the two instances an operation is invoked on. -/
inductive Side where
  | A
  | B
deriving DecidableEq

/-- The joint state of two container instances. -/
inductive World (K V : Type) where
  | shared (s : KvState K V) (eA eB : Bool)
  | separate (sA sB : KvState K V) (eA eB : Bool)
deriving DecidableEq

/-- The container state an instance currently points to. -/
def stateOf : World K V → Side → KvState K V
  | .shared s _ _, _ => s
  | .separate sA _ _ _, .A => sA
  | .separate _ sB _ _, .B => sB

/-- The `modifiable_from_outside` flag of an instance. -/
def exposedOf : World K V → Side → Bool
  | .shared _ eA _, .A => eA
  | .shared _ _ eB, .B => eB
  | .separate _ _ eA _, .A => eA
  | .separate _ _ _ eB, .B => eB

/-- After a shared world splits, install `mine` as the acting side's state
(with its new flag) and `other` as the sibling's. -/
def installSep (side : Side) (mine other : KvState K V) (eMine eOther : Bool) :
    World K V :=
  match side with
  | .A => .separate mine other eMine eOther
  | .B => .separate other mine eOther eMine

/-- Invariant of both instances' states. -/
def InvW : World K V → Prop
  | .shared s _ _ => Inv s
  | .separate sA sB _ _ => Inv sA ∧ Inv sB

instance (w : World K V) : Decidable (InvW w) := by
  unfold InvW; cases w <;> infer_instance

/-- Copy construction `B(A)` from a lone instance `A` (both variants): the new
instance first shares the source's storage with its own flag `false`; if the
source is exposed it then clones at once (`use_count` is 2, so
`copy_if_needed` builds a deep copy).  The source is a `const` reference, so
its own flag is left as it was. -/
def copyCtorW (s : KvState K V) (eSrc : Bool) : World K V :=
  if eSrc then .separate s (cloneState s) eSrc false
  else .shared s eSrc false

/-- An external write through a previously returned mutable reference: the
node with id `i` in the storage the given side owns gets value `v`.  When the
storage is still shared, both instances see the write (the aliasing hazard
the exposed-copy rule exists to prevent). -/
def setValById (q : List (Entry K V)) (i : Nat) (v : V) : List (Entry K V) :=
  q.map fun e => if e.id = i then ⟨e.id, e.key, v⟩ else e

/-- Write `v` through a reference to node `i` of the given side's storage. -/
def writeThrough (w : World K V) (side : Side) (i : Nat) (v : V) : World K V :=
  match w, side with
  | .shared s eA eB, _ => .shared ⟨setValById s.queue i v, s.iters, s.nextId⟩ eA eB
  | .separate sA sB eA eB, .A =>
    .separate ⟨setValById sA.queue i v, sA.iters, sA.nextId⟩ sB eA eB
  | .separate sA sB eA eB, .B =>
    .separate sA ⟨setValById sB.queue i v, sB.iters, sB.nextId⟩ eA eB

/-- First-variant `pop(k)` invoked on one instance of the world.  The source
finds the map iterator `it` BEFORE `copy_if_needed()`.  When the storage is
shared, `copy_if_needed` installs a fresh clone on the acting instance, but
`it` still points into the ORIGINAL shared map, and `it->second.front()` into
the original queue; the following `erase`/`pop_front` therefore mutate the
sibling's structures (for the queue/map `erase` calls this is undefined
behaviour in C++; we model the well-defined part — the unlink of the node the
iterator designates — and do not model the corrupted size bookkeeping of the
new copies).  The second variant (`pop(K const&)` at lines 444-461) refetches
`it` inside the clone and does not have this behaviour. -/
def wPopKeyV1 (w : World K V) (side : Side) (k : K) : World K V × Option Err :=
  match w with
  | .shared s eA eB =>
    match mapFind s.iters k with
    | none => (w, some .keyNotFound)
    | some [] => (w, none)
      -- unreachable for invariant states (buckets are never empty)
    | some (i :: rest) =>
      let c := cloneState s
      let sOld : KvState K V :=
        ⟨eraseId s.queue i,
         if rest = [] then mapEraseKey s.iters k else mapSetBucket s.iters k rest,
         s.nextId⟩
      match side with
      | .A => (.separate c sOld false eB, none)
      | .B => (.separate sOld c eA false, none)
  | .separate sA sB eA eB =>
    match side with
    | .A =>
      match popKey sA k with
      | .error e => (w, some e)
      | .ok t => (.separate t sB false eB, none)
    | .B =>
      match popKey sB k with
      | .error e => (w, some e)
      | .ok t => (.separate sA t eA false, none)

/-- First-variant `pop()`: empty check on the instance's queue, then
delegation to `pop(front key)`. -/
def wPopFrontV1 (w : World K V) (side : Side) : World K V × Option Err :=
  match (stateOf w side).queue with
  | [] => (w, some .emptyContainer)
  | e :: _ => wPopKeyV1 w side e.key

/-- First-variant `move_to_back(k)`.  Like `wPopKeyV1`, the map iterator is
found before the clone; when the storage is shared, the splice loop is handed
iterators into the ORIGINAL queue, so (mechanically) it unlinks the sibling's
nodes and relinks them at the back of the acting instance's fresh queue
(undefined behaviour in the source; only the error path of this branch is the
subject of a theorem below). -/
def wMoveToBackV1 (w : World K V) (side : Side) (k : K) : World K V × Option Err :=
  match w with
  | .shared s eA eB =>
    match mapFind s.iters k with
    | none => (w, some .keyNotFound)
    | some b =>
      let c := cloneState s
      let sOld : KvState K V :=
        ⟨s.queue.filter fun e => decide (e.id ∉ b), s.iters, s.nextId⟩
      let mine : KvState K V :=
        ⟨b.foldl (fun q i => q ++ (s.queue.filter fun e => decide (e.id = i))) c.queue,
         c.iters, c.nextId⟩
      (installSep side mine sOld false (match side with | .A => eB | .B => eA), none)
  | .separate sA sB eA eB =>
    match side with
    | .A =>
      match moveToBack sA k with
      | .error e => (w, some e)
      | .ok t => (.separate t sB false eB, none)
    | .B =>
      match moveToBack sB k with
      | .error e => (w, some e)
      | .ok t => (.separate sA t eA false, none)

/-- First-variant mutable `front()`: empty check, `copy_if_needed`, set the
exposed flag, return a reference to the front node of the (possibly fresh)
queue — modelled by its node id. -/
def wFrontMutV1 (w : World K V) (side : Side) :
    World K V × Option Err × Option Nat :=
  match w with
  | .shared s eA eB =>
    match s.queue with
    | [] => (w, some .emptyContainer, none)
    | _ :: _ =>
      let c := cloneState s
      (installSep side c s true (match side with | .A => eB | .B => eA),
       none, (c.queue.head?).map fun e => e.id)
  | .separate sA sB eA eB =>
    match side with
    | .A =>
      match sA.queue with
      | [] => (w, some .emptyContainer, none)
      | e :: _ => (.separate sA sB true eB, none, some e.id)
    | .B =>
      match sB.queue with
      | [] => (w, some .emptyContainer, none)
      | e :: _ => (.separate sA sB eA true, none, some e.id)

/-- First-variant mutable `back()`: same shape as `front()` on the last
node. -/
def wBackMutV1 (w : World K V) (side : Side) :
    World K V × Option Err × Option Nat :=
  match w with
  | .shared s eA eB =>
    match s.queue with
    | [] => (w, some .emptyContainer, none)
    | _ :: _ =>
      let c := cloneState s
      (installSep side c s true (match side with | .A => eB | .B => eA),
       none, (c.queue.getLast?).map fun e => e.id)
  | .separate sA sB eA eB =>
    match side with
    | .A =>
      match sA.queue.getLast? with
      | none => (w, some .emptyContainer, none)
      | some e => (.separate sA sB true eB, none, some e.id)
    | .B =>
      match sB.queue.getLast? with
      | none => (w, some .emptyContainer, none)
      | some e => (.separate sA sB eA true, none, some e.id)

/-- First-variant mutable `first(k)`: `find` BEFORE the clone, so in the
shared case the returned reference (`it->second.front()`) designates a node
of the ORIGINAL shared queue, not of the fresh clone the instance now owns. -/
def wFirstMutV1 (w : World K V) (side : Side) (k : K) :
    World K V × Option Err × Option Nat :=
  match w with
  | .shared s eA eB =>
    match mapFind s.iters k with
    | none => (w, some .keyNotFound, none)
    | some b =>
      let c := cloneState s
      (installSep side c s true (match side with | .A => eB | .B => eA),
       none, b.head?)
  | .separate sA sB eA eB =>
    match side with
    | .A =>
      match mapFind sA.iters k with
      | none => (w, some .keyNotFound, none)
      | some b => (.separate sA sB true eB, none, b.head?)
    | .B =>
      match mapFind sB.iters k with
      | none => (w, some .keyNotFound, none)
      | some b => (.separate sA sB eA true, none, b.head?)

/-- First-variant mutable `last(k)`: same shape on the bucket's back. -/
def wLastMutV1 (w : World K V) (side : Side) (k : K) :
    World K V × Option Err × Option Nat :=
  match w with
  | .shared s eA eB =>
    match mapFind s.iters k with
    | none => (w, some .keyNotFound, none)
    | some b =>
      let c := cloneState s
      (installSep side c s true (match side with | .A => eB | .B => eA),
       none, b.getLast?)
  | .separate sA sB eA eB =>
    match side with
    | .A =>
      match mapFind sA.iters k with
      | none => (w, some .keyNotFound, none)
      | some b => (.separate sA sB true eB, none, b.getLast?)
    | .B =>
      match mapFind sB.iters k with
      | none => (w, some .keyNotFound, none)
      | some b => (.separate sA sB eA true, none, b.getLast?)

/-!
Exception model for `push` (claim C3).  `PushStep` names the allocating
sub-steps; `pushV1`/`pushV2` run `push` with the chosen sub-step failing (if
it is reached).  The result carries the container state both on success and
on failure, so the strong-guarantee statement can talk about the state left
behind by a throw.
-/

/-- The allocating sub-steps of `push` (each may throw `bad_alloc`). -/
inductive PushStep where
  | cloneStep
  | queueStep
  | emplaceStep
  | bucketStep
deriving DecidableEq

/-- The shared core of both variants' `push` bodies, with fault injection:
`emplace_back` on the queue, `try_emplace`/`emplace` on the map, `push_back`
on the bucket, and the inner rollback handlers of the source (erase the
created key, pop the queue back).  `.error t` means the exception propagates
leaving state `t`. -/
def pushCore (s : KvState K V) (k : K) (v : V) (fp : Option PushStep) :
    Except (KvState K V) (KvState K V) :=
  if fp = some .queueStep then
    .error s
    -- emplace_back threw; it has the strong guarantee, nothing changed
  else
    let q1 := s.queue ++ [⟨s.nextId, k, v⟩]
    if fp = some .emplaceStep then
      .error ⟨q1.dropLast, s.iters, s.nextId⟩
      -- the map emplace threw; handler: key_created is false, pop_back()
    else
      let em := tryEmplace s.iters k
      if fp = some .bucketStep then
        .error ⟨q1.dropLast, if em.2 = true then mapEraseKey em.1 k else em.1, s.nextId⟩
        -- the bucket push_back threw; handler: erase the freshly created
        -- key, then pop_back()
      else
        .ok ⟨q1, bucketPushBack em.1 k s.nextId, s.nextId + 1⟩

/-- First-variant `push`: `copy_if_needed()` first (clones when the storage
is shared; a throw inside the clone leaves the original installed), then the
core with its rollback handlers running on the now-private state. -/
def pushV1 (s : KvState K V) (isShared : Bool) (k : K) (v : V)
    (fp : Option PushStep) : Except (KvState K V) (KvState K V) :=
  if isShared then
    if fp = some .cloneStep then .error s
    else pushCore (cloneState s) k v fp
  else pushCore s k v fp

/-- Second-variant `push`: `auto copy = is_copy_needed() ? create_copy() :
*this` clones when the storage is shared, and also when this instance is
exposed (the self-copy runs the copy constructor, which clones eagerly for an
exposed source); the clone is swapped in and mutated, and the outer handler
swaps the untouched original back on any failure.  Without a clone the swaps
exchange identical pointers and the inner handlers roll back in place, as in
the first variant. -/
def pushV2 (s : KvState K V) (isShared exposed : Bool) (k : K) (v : V)
    (fp : Option PushStep) : Except (KvState K V) (KvState K V) :=
  if isShared || exposed then
    if fp = some .cloneStep then .error s
    else
      match pushCore (cloneState s) k v fp with
      | .error _ => .error s
      | .ok t => .ok t
  else pushCore s k v fp

/-!
Lemma layer, part 1: the association-list map.
-/

theorem mapFind_eq_none_iff {m : List (K × List Nat)} {k : K} :
    mapFind m k = none ↔ k ∉ m.map Prod.fst := by
  induction m with
  | nil => simp [mapFind]
  | cons p rest ih =>
    by_cases h : k = p.1 <;> simp [mapFind, h, ih]

theorem mem_of_mapFind_eq_some {m : List (K × List Nat)} {k : K} {b : List Nat}
    (h : mapFind m k = some b) : (k, b) ∈ m := by
  induction m with
  | nil => simp [mapFind] at h
  | cons p rest ih =>
    by_cases hk : k = p.1
    · subst hk
      simp [mapFind] at h
      rw [← h]
      exact List.mem_cons_self _ _
    · simp only [mapFind, if_neg hk] at h
      exact List.mem_cons_of_mem _ (ih h)

theorem mapFind_eq_some_of_mem {m : List (K × List Nat)}
    (hnd : (m.map Prod.fst).Nodup) {k : K} {b : List Nat}
    (hm : (k, b) ∈ m) : mapFind m k = some b := by
  induction m with
  | nil => simp at hm
  | cons p rest ih =>
    simp only [List.map_cons, List.nodup_cons] at hnd
    rcases List.mem_cons.1 hm with h | h
    · rw [← h]
      simp [mapFind]
    · have hk : k ≠ p.1 := fun he => hnd.1 (List.mem_map.2 ⟨(k, b), h, he⟩)
      simp only [mapFind, if_neg hk]
      exact ih hnd.2 h

theorem mapFind_exists_of_mem_fst {m : List (K × List Nat)} {k : K}
    (h : k ∈ m.map Prod.fst) : ∃ b, mapFind m k = some b := by
  cases hf : mapFind m k with
  | none => exact absurd (mapFind_eq_none_iff.1 hf) (not_not_intro h)
  | some b => exact ⟨b, rfl⟩

theorem tryEmplace_of_found {m : List (K × List Nat)} {k : K}
    (hs : (m.map Prod.fst).Sorted (· < ·)) (h : k ∈ m.map Prod.fst) :
    tryEmplace m k = (m, false) := by
  induction m with
  | nil => simp at h
  | cons p rest ih =>
    simp only [List.map_cons, List.sorted_cons] at hs
    simp only [List.map_cons] at h
    rcases List.mem_cons.1 h with hk | hk
    · have hlt : ¬ k < p.1 := by rw [hk]; exact lt_irrefl _
      simp [tryEmplace, hlt, hk]
    · have hgt : p.1 < k := hs.1 _ hk
      have hlt : ¬ k < p.1 := not_lt_of_gt hgt
      have hne : k ≠ p.1 := ne_of_gt hgt
      simp [tryEmplace, hlt, hne, ih hs.2 hk]

theorem mapFind_eq_none_of_lt_head {p : K × List Nat} {rest : List (K × List Nat)}
    {k : K} (hs : ((p :: rest).map Prod.fst).Sorted (· < ·)) (hlt : k < p.1) :
    mapFind (p :: rest) k = none := by
  rw [mapFind_eq_none_iff]
  simp only [List.map_cons, List.sorted_cons] at hs ⊢
  intro h
  rcases List.mem_cons.1 h with he | he
  · exact absurd he (ne_of_lt hlt)
  · exact absurd (lt_trans hlt (hs.1 _ he)) (lt_irrefl k)

theorem tryEmplace_mem_cases {m : List (K × List Nat)} {k : K} {q : K × List Nat}
    (hq : q ∈ (tryEmplace m k).1) : q = (k, []) ∨ q ∈ m := by
  induction m with
  | nil => simp [tryEmplace] at hq; exact Or.inl hq
  | cons p rest ih =>
    by_cases hlt : k < p.1
    · simp only [tryEmplace, if_pos hlt] at hq
      rcases List.mem_cons.1 hq with h | h
      · exact Or.inl h
      · exact Or.inr h
    · by_cases he : k = p.1
      · simp only [tryEmplace, if_neg hlt, if_pos he] at hq
        exact Or.inr hq
      · simp only [tryEmplace, if_neg hlt, if_neg he] at hq
        rcases List.mem_cons.1 hq with h | h
        · exact Or.inr (h ▸ List.mem_cons_self _ _)
        · rcases ih h with h2 | h2
          · exact Or.inl h2
          · exact Or.inr (List.mem_cons_of_mem _ h2)

theorem tryEmplace_fst_sorted {m : List (K × List Nat)} {k : K}
    (hs : (m.map Prod.fst).Sorted (· < ·)) :
    ((tryEmplace m k).1.map Prod.fst).Sorted (· < ·) := by
  induction m with
  | nil => simp [tryEmplace]
  | cons p rest ih =>
    simp only [List.map_cons, List.sorted_cons] at hs
    by_cases hlt : k < p.1
    · simp only [tryEmplace, if_pos hlt, List.map_cons, List.sorted_cons]
      refine ⟨?_, hs.1, hs.2⟩
      intro x hx
      rcases List.mem_cons.1 hx with h | h
      · rw [h]; exact hlt
      · exact lt_trans hlt (hs.1 _ h)
    · by_cases he : k = p.1
      · simp only [tryEmplace, if_neg hlt, if_pos he, List.map_cons, List.sorted_cons]
        exact ⟨hs.1, hs.2⟩
      · have hgt : p.1 < k := lt_of_le_of_ne (not_lt.1 hlt) (Ne.symm he)
        simp only [tryEmplace, if_neg hlt, if_neg he, List.map_cons, List.sorted_cons]
        refine ⟨?_, ih hs.2⟩
        intro x hx
        rcases List.mem_map.1 hx with ⟨q, hq, hqx⟩
        rcases tryEmplace_mem_cases hq with h | h
        · rw [← hqx, h]; exact hgt
        · exact hs.1 _ (by rw [← hqx]; exact List.mem_map.2 ⟨q, h, rfl⟩)

theorem mapFind_tryEmplace_self {m : List (K × List Nat)} {k : K}
    (hs : (m.map Prod.fst).Sorted (· < ·)) :
    mapFind (tryEmplace m k).1 k = some ((mapFind m k).getD []) := by
  induction m with
  | nil => simp [tryEmplace, mapFind]
  | cons p rest ih =>
    by_cases hlt : k < p.1
    · rw [mapFind_eq_none_of_lt_head hs hlt]
      simp [tryEmplace, if_pos hlt, mapFind]
    · by_cases he : k = p.1
      · simp [tryEmplace, if_neg hlt, if_pos he, mapFind, he]
      · have hs2 : (rest.map Prod.fst).Sorted (· < ·) :=
          (List.sorted_cons.1 (by simpa using hs)).2
        simp [tryEmplace, if_neg hlt, if_neg he, mapFind, he, ih hs2]

theorem mapFind_tryEmplace_other {m : List (K × List Nat)} {k j : K}
    (hj : j ≠ k) : mapFind (tryEmplace m k).1 j = mapFind m j := by
  induction m with
  | nil => simp [tryEmplace, mapFind, hj]
  | cons p rest ih =>
    by_cases hlt : k < p.1
    · simp [tryEmplace, if_pos hlt, mapFind, hj]
    · by_cases he : k = p.1
      · simp [tryEmplace, if_neg hlt, if_pos he]
      · by_cases hp : j = p.1
        · simp [tryEmplace, if_neg hlt, if_neg he, mapFind, hp]
        · simp [tryEmplace, if_neg hlt, if_neg he, mapFind, hp, ih]

theorem tryEmplace_snd_iff {m : List (K × List Nat)} {k : K}
    (hs : (m.map Prod.fst).Sorted (· < ·)) :
    (tryEmplace m k).2 = true ↔ mapFind m k = none := by
  induction m with
  | nil => simp [tryEmplace, mapFind]
  | cons p rest ih =>
    by_cases hlt : k < p.1
    · rw [mapFind_eq_none_of_lt_head hs hlt]
      simp [tryEmplace, if_pos hlt]
    · by_cases he : k = p.1
      · simp [tryEmplace, if_neg hlt, if_pos he, mapFind, he]
      · have hs2 : (rest.map Prod.fst).Sorted (· < ·) :=
          (List.sorted_cons.1 (by simpa using hs)).2
        simp [tryEmplace, if_neg hlt, if_neg he, mapFind, he, ih hs2]

theorem mapEraseKey_tryEmplace_of_none {m : List (K × List Nat)} {k : K}
    (h : mapFind m k = none) : mapEraseKey (tryEmplace m k).1 k = m := by
  induction m with
  | nil => simp [tryEmplace, mapEraseKey]
  | cons p rest ih =>
    have hne : k ≠ p.1 := by
      intro he
      rw [mapFind, if_pos he] at h
      exact Option.noConfusion h
    rw [mapFind, if_neg hne] at h
    by_cases hlt : k < p.1
    · simp [tryEmplace, if_pos hlt, mapEraseKey, hne]
    · simp [tryEmplace, if_neg hlt, if_neg hne, mapEraseKey, hne, ih h]

theorem bucketPushBack_fst {m : List (K × List Nat)} {k : K} {i : Nat} :
    (bucketPushBack m k i).map Prod.fst = m.map Prod.fst := by
  induction m with
  | nil => simp [bucketPushBack]
  | cons p rest ih =>
    by_cases he : k = p.1 <;> simp [bucketPushBack, he, ih]

theorem mapFind_bucketPushBack_self {m : List (K × List Nat)} {k : K} {i : Nat} :
    mapFind (bucketPushBack m k i) k = (mapFind m k).map (· ++ [i]) := by
  induction m with
  | nil => simp [bucketPushBack, mapFind]
  | cons p rest ih =>
    by_cases he : k = p.1
    · simp [bucketPushBack, he, mapFind]
    · simp [bucketPushBack, he, mapFind, ih]

theorem mapFind_bucketPushBack_other {m : List (K × List Nat)} {k j : K} {i : Nat}
    (hj : j ≠ k) : mapFind (bucketPushBack m k i) j = mapFind m j := by
  induction m with
  | nil => simp [bucketPushBack, mapFind]
  | cons p rest ih =>
    by_cases he : k = p.1
    · have : j ≠ p.1 := by rw [← he]; exact hj
      simp [bucketPushBack, he, mapFind, this]
    · by_cases hp : j = p.1
      · simp [bucketPushBack, he, mapFind, hp]
      · simp [bucketPushBack, he, mapFind, hp, ih]

theorem mapEraseKey_fst_sublist {m : List (K × List Nat)} {k : K} :
    List.Sublist ((mapEraseKey m k).map Prod.fst) (m.map Prod.fst) := by
  induction m with
  | nil => simp [mapEraseKey]
  | cons p rest ih =>
    by_cases he : k = p.1
    · simp only [mapEraseKey, if_pos he, List.map_cons]
      exact (List.sublist_cons_self _ _)
    · simp only [mapEraseKey, if_neg he, List.map_cons]
      exact ih.cons₂ _

theorem mapFind_mapEraseKey_self {m : List (K × List Nat)} {k : K}
    (hnd : (m.map Prod.fst).Nodup) : mapFind (mapEraseKey m k) k = none := by
  induction m with
  | nil => simp [mapEraseKey, mapFind]
  | cons p rest ih =>
    simp only [List.map_cons, List.nodup_cons] at hnd
    by_cases he : k = p.1
    · rw [mapEraseKey, if_pos he, mapFind_eq_none_iff, he]
      exact hnd.1
    · simp [mapEraseKey, he, mapFind, ih hnd.2]

theorem mapFind_mapEraseKey_other {m : List (K × List Nat)} {k j : K}
    (hj : j ≠ k) : mapFind (mapEraseKey m k) j = mapFind m j := by
  induction m with
  | nil => simp [mapEraseKey, mapFind]
  | cons p rest ih =>
    by_cases he : k = p.1
    · have : j ≠ p.1 := by rw [← he]; exact hj
      simp [mapEraseKey, he, mapFind, this]
    · by_cases hp : j = p.1
      · simp [mapEraseKey, he, mapFind, hp]
      · simp [mapEraseKey, he, mapFind, hp, ih]

theorem mapSetBucket_fst {m : List (K × List Nat)} {k : K} {b : List Nat} :
    (mapSetBucket m k b).map Prod.fst = m.map Prod.fst := by
  induction m with
  | nil => simp [mapSetBucket]
  | cons p rest ih =>
    by_cases he : k = p.1 <;> simp [mapSetBucket, he, ih]

theorem mapFind_mapSetBucket_self {m : List (K × List Nat)} {k : K} {b : List Nat} :
    mapFind (mapSetBucket m k b) k = (mapFind m k).map (fun _ => b) := by
  induction m with
  | nil => simp [mapSetBucket, mapFind]
  | cons p rest ih =>
    by_cases he : k = p.1
    · simp [mapSetBucket, he, mapFind]
    · simp [mapSetBucket, he, mapFind, ih]

theorem mapFind_mapSetBucket_other {m : List (K × List Nat)} {k j : K} {b : List Nat}
    (hj : j ≠ k) : mapFind (mapSetBucket m k b) j = mapFind m j := by
  induction m with
  | nil => simp [mapSetBucket, mapFind]
  | cons p rest ih =>
    by_cases he : k = p.1
    · have : j ≠ p.1 := by rw [← he]; exact hj
      simp [mapSetBucket, he, mapFind, this]
    · by_cases hp : j = p.1
      · simp [mapSetBucket, he, mapFind, hp]
      · simp [mapSetBucket, he, mapFind, hp, ih]

/-!
Lemma layer, part 2: buckets and the invariant.
-/

theorem bucketOf_nil {k : K} : bucketOf ([] : List (Entry K V)) k = [] := rfl

theorem bucketOf_cons {e : Entry K V} {q : List (Entry K V)} {k : K} :
    bucketOf (e :: q) k =
      if e.key = k then e.id :: bucketOf q k else bucketOf q k := by
  by_cases he : e.key = k <;> simp [bucketOf, List.filter_cons, he]

theorem bucketOf_append {q q' : List (Entry K V)} {k : K} :
    bucketOf (q ++ q') k = bucketOf q k ++ bucketOf q' k := by
  simp [bucketOf, List.filter_append]

theorem bucketOf_eq_nil_iff {q : List (Entry K V)} {k : K} :
    bucketOf q k = [] ↔ ∀ e ∈ q, e.key ≠ k := by
  simp [bucketOf, List.map_eq_nil_iff, List.filter_eq_nil_iff]

theorem bucketOf_ne_nil_of_mem {q : List (Entry K V)} {e : Entry K V}
    (he : e ∈ q) : bucketOf q e.key ≠ [] := fun h =>
  (bucketOf_eq_nil_iff.1 h) e he rfl

theorem exists_entry_of_bucketOf_ne_nil {q : List (Entry K V)} {k : K}
    (h : bucketOf q k ≠ []) : ∃ e ∈ q, e.key = k := by
  by_contra hc
  push_neg at hc
  exact h (bucketOf_eq_nil_iff.2 hc)

theorem inv_nodup_fst {s : KvState K V} (h : Inv s) :
    (s.iters.map Prod.fst).Nodup :=
  h.2.2.1.nodup

theorem inv_find_none {s : KvState K V} (h : Inv s) {k : K}
    (hb : bucketOf s.queue k = []) : mapFind s.iters k = none := by
  cases hf : mapFind s.iters k with
  | none => rfl
  | some b =>
    have hp := h.1 _ (mem_of_mapFind_eq_some hf)
    exact absurd (hp.1.trans hb) hp.2

theorem inv_find_some {s : KvState K V} (h : Inv s) {k : K}
    (hb : bucketOf s.queue k ≠ []) :
    mapFind s.iters k = some (bucketOf s.queue k) := by
  obtain ⟨e, he, hek⟩ := exists_entry_of_bucketOf_ne_nil hb
  obtain ⟨b, hfb⟩ := mapFind_exists_of_mem_fst (hek ▸ h.2.1 e he)
  have hp := h.1 _ (mem_of_mapFind_eq_some hfb)
  rw [hfb]
  exact congrArg some hp.1

theorem count_eq_length_bucketOf {s : KvState K V} (h : Inv s) (k : K) :
    count s k = (bucketOf s.queue k).length := by
  by_cases hb : bucketOf s.queue k = []
  · simp [count, inv_find_none h hb, hb]
  · simp [count, inv_find_some h hb]

theorem count_pos_iff {s : KvState K V} (h : Inv s) {k : K} :
    0 < count s k ↔ bucketOf s.queue k ≠ [] := by
  rw [count_eq_length_bucketOf h]
  simp [List.length_pos]

theorem inv_of_char {q : List (Entry K V)} {m : List (K × List Nat)} {n : Nat}
    (hsort : (m.map Prod.fst).Sorted (· < ·))
    (hchar : ∀ k, (bucketOf q k = [] → mapFind m k = none) ∧
                  (bucketOf q k ≠ [] → mapFind m k = some (bucketOf q k)))
    (hnd : (q.map fun e => e.id).Nodup)
    (hbound : ∀ e ∈ q, e.id < n) : Inv ⟨q, m, n⟩ := by
  have hndf : (m.map Prod.fst).Nodup := hsort.nodup
  refine ⟨?_, ?_, hsort, hnd, hbound⟩
  · intro p hp
    have hf := mapFind_eq_some_of_mem hndf hp
    by_cases hb : bucketOf q p.1 = []
    · rw [(hchar p.1).1 hb] at hf
      exact Option.noConfusion hf
    · rw [(hchar p.1).2 hb] at hf
      refine ⟨(Option.some.inj hf).symm, ?_⟩
      rw [(Option.some.inj hf).symm]
      exact hb
  · intro e he
    have hb := bucketOf_ne_nil_of_mem he
    have hf := (hchar e.key).2 hb
    by_contra hnot
    rw [mapFind_eq_none_iff.2 hnot] at hf
    exact Option.noConfusion hf

theorem inv_char {s : KvState K V} (h : Inv s) (k : K) :
    (bucketOf s.queue k = [] → mapFind s.iters k = none) ∧
    (bucketOf s.queue k ≠ [] → mapFind s.iters k = some (bucketOf s.queue k)) :=
  ⟨fun hb => inv_find_none h hb, fun hb => inv_find_some h hb⟩

/-!
Lemma layer, part 3: the queue under erase and splice.
-/

theorem entry_unique {q : List (Entry K V)}
    (hnd : (q.map fun e => e.id).Nodup) {e e' : Entry K V}
    (he : e ∈ q) (he' : e' ∈ q) (hid : e.id = e'.id) : e = e' :=
  List.inj_on_of_nodup_map hnd he he' hid

theorem mem_bucketOf_iff {q : List (Entry K V)} {k : K} {i : Nat} :
    i ∈ bucketOf q k ↔ ∃ e ∈ q, e.key = k ∧ e.id = i := by
  simp only [bucketOf, List.mem_map, List.mem_filter, decide_eq_true_eq]
  constructor
  · rintro ⟨e, ⟨he, hk⟩, hi⟩
    exact ⟨e, he, hk, hi⟩
  · rintro ⟨e, he, hk, hi⟩
    exact ⟨e, ⟨he, hk⟩, hi⟩

theorem mem_map_key_iff_bucketOf_ne_nil {q : List (Entry K V)} {k : K} :
    k ∈ (q.map fun e => e.key) ↔ bucketOf q k ≠ [] := by
  rw [Ne, bucketOf_eq_nil_iff]
  simp only [List.mem_map]
  constructor
  · rintro ⟨e, he, hk⟩ hall
    exact hall e he hk
  · intro h
    by_contra hc
    push_neg at hc
    exact h fun e he hk => hc e he hk

theorem eraseId_eq_self {q : List (Entry K V)} {i : Nat}
    (h : ∀ e ∈ q, e.id ≠ i) : eraseId q i = q := by
  rw [eraseId, List.filter_eq_self]
  intro e he
  simpa using h e he

theorem eraseId_cons_keep {e : Entry K V} {q : List (Entry K V)} {i : Nat}
    (h : e.id ≠ i) : eraseId (e :: q) i = e :: eraseId q i := by
  rw [eraseId, List.filter_cons, if_pos (by simpa using h)]
  rfl

theorem eraseId_cons_drop {e : Entry K V} {q : List (Entry K V)} {i : Nat}
    (h : e.id = i) : eraseId (e :: q) i = eraseId q i := by
  rw [eraseId, List.filter_cons, if_neg (by simp [h])]
  rfl

theorem eraseId_bucketOf_self {q : List (Entry K V)} {k : K} {i : Nat}
    {rest : List Nat} (hnd : (q.map fun e => e.id).Nodup)
    (hb : bucketOf q k = i :: rest) : bucketOf (eraseId q i) k = rest := by
  induction q with
  | nil => simp [bucketOf] at hb
  | cons e q' ih =>
    simp only [List.map_cons, List.nodup_cons] at hnd
    by_cases hk : e.key = k
    · rw [bucketOf_cons, if_pos hk] at hb
      have hei : e.id = i := (List.cons.inj hb).1
      have hrest : bucketOf q' k = rest := (List.cons.inj hb).2
      have hskip : ∀ x ∈ q', x.id ≠ i := fun x hx hxi =>
        hnd.1 (by rw [hei]; exact List.mem_map.2 ⟨x, hx, hxi⟩)
      rw [eraseId_cons_drop hei, eraseId_eq_self hskip]
      exact hrest
    · rw [bucketOf_cons, if_neg hk] at hb
      have hne : e.id ≠ i := by
        intro hei
        have hi : i ∈ bucketOf q' k := by
          rw [hb]; exact List.mem_cons_self _ _
        obtain ⟨x, hx, _, hxi⟩ := mem_bucketOf_iff.1 hi
        exact hnd.1 (by rw [hei]; exact List.mem_map.2 ⟨x, hx, hxi⟩)
      rw [eraseId_cons_keep hne, bucketOf_cons, if_neg hk]
      exact ih hnd.2 hb

theorem eraseId_bucketOf_other {q : List (Entry K V)} {k j : K} {i : Nat}
    (hnd : (q.map fun e => e.id).Nodup) (hik : i ∈ bucketOf q k)
    (hj : j ≠ k) : bucketOf (eraseId q i) j = bucketOf q j := by
  induction q with
  | nil => simp [bucketOf] at hik
  | cons e q' ih =>
    simp only [List.map_cons, List.nodup_cons] at hnd
    by_cases hei : e.id = i
    · have hek : e.key = k := by
        obtain ⟨x, hx, hxk, hxi⟩ := mem_bucketOf_iff.1 hik
        have hxe : x = e := by
          rcases List.mem_cons.1 hx with h | h
          · exact h
          · exact absurd (by rw [hei, ← hxi]; exact List.mem_map.2 ⟨x, h, rfl⟩)
              hnd.1
        rw [← hxe]
        exact hxk
      have hskip : ∀ x ∈ q', x.id ≠ i := fun x hx hxi =>
        hnd.1 (by rw [hei]; exact List.mem_map.2 ⟨x, hx, hxi⟩)
      rw [eraseId_cons_drop hei, eraseId_eq_self hskip, bucketOf_cons,
        if_neg (by rw [hek]; exact Ne.symm hj)]
    · have hik' : i ∈ bucketOf q' k := by
        rw [bucketOf_cons] at hik
        by_cases hek : e.key = k
        · rw [if_pos hek] at hik
          rcases List.mem_cons.1 hik with h | h
          · exact absurd h.symm hei
          · exact h
        · rw [if_neg hek] at hik
          exact hik
      rw [eraseId_cons_keep hei, bucketOf_cons, bucketOf_cons]
      by_cases hej : e.key = j
      · rw [if_pos hej, if_pos hej, ih hnd.2 hik']
      · rw [if_neg hej, if_neg hej]
        exact ih hnd.2 hik'

theorem filter_id_eq_singleton {q : List (Entry K V)}
    (hnd : (q.map fun e => e.id).Nodup) {b : Entry K V} (hb : b ∈ q) :
    (q.filter fun e => decide (e.id = b.id)) = [b] := by
  induction q with
  | nil => simp at hb
  | cons e q' ih =>
    simp only [List.map_cons, List.nodup_cons] at hnd
    by_cases hei : e.id = b.id
    · have heb : e = b := by
        rcases List.mem_cons.1 hb with h | h
        · exact h.symm
        · exact absurd (by rw [hei]; exact List.mem_map.2 ⟨b, h, rfl⟩) hnd.1
      have hfil : (q'.filter fun x => decide (x.id = b.id)) = [] := by
        rw [List.filter_eq_nil_iff]
        intro x hx
        simp only [decide_eq_true_eq]
        intro hxb
        exact hnd.1 (List.mem_map.2 ⟨x, hx, hxb.trans hei.symm⟩)
      rw [List.filter_cons, if_pos (by simp [hei]), hfil, heb]
    · have hbq' : b ∈ q' := by
        rcases List.mem_cons.1 hb with h | h
        · exact absurd (congrArg Entry.id h.symm) hei
        · exact h
      rw [List.filter_cons, if_neg (by simp [hei])]
      exact ih hnd.2 hbq'

/-!
Lemma layer, part 4: the invariant is preserved by the operations.
-/

theorem inv_emptyKv : Inv (emptyKv : KvState K V) := by
  refine ⟨?_, ?_, ?_, ?_, ?_⟩ <;> simp [emptyKv]

theorem inv_push {s : KvState K V} (h : Inv s) (k : K) (v : V) :
    Inv (push s k v) := by
  have hsort := h.2.2.1
  show Inv ⟨s.queue ++ [⟨s.nextId, k, v⟩],
    bucketPushBack (tryEmplace s.iters k).1 k s.nextId, s.nextId + 1⟩
  refine inv_of_char ?_ ?_ ?_ ?_
  · rw [bucketPushBack_fst]
    exact tryEmplace_fst_sorted hsort
  · intro j
    by_cases hj : j = k
    · subst hj
      have hb2 : bucketOf (s.queue ++ [(⟨s.nextId, j, v⟩ : Entry K V)]) j =
          bucketOf s.queue j ++ [s.nextId] := by
        rw [bucketOf_append, bucketOf_cons, if_pos rfl, bucketOf_nil]
      constructor
      · intro hnil
        rw [hb2] at hnil
        exact absurd hnil (by simp)
      · intro _
        rw [hb2, mapFind_bucketPushBack_self, mapFind_tryEmplace_self hsort]
        by_cases hq : bucketOf s.queue j = []
        · rw [(inv_char h j).1 hq, hq]
          rfl
        · rw [(inv_char h j).2 hq]
          rfl
    · have hb2 : bucketOf (s.queue ++ [(⟨s.nextId, k, v⟩ : Entry K V)]) j =
          bucketOf s.queue j := by
        rw [bucketOf_append, bucketOf_cons, if_neg (Ne.symm hj), bucketOf_nil,
          List.append_nil]
      rw [hb2, mapFind_bucketPushBack_other hj, mapFind_tryEmplace_other hj]
      exact inv_char h j
  · rw [List.map_append, List.nodup_append]
    refine ⟨h.2.2.2.1, List.nodup_singleton _, ?_⟩
    intro a ha hb
    simp only [List.map_cons, List.map_nil, List.mem_singleton] at hb
    obtain ⟨x, hx, hxa⟩ := List.mem_map.1 ha
    have := h.2.2.2.2 x hx
    rw [hxa, hb] at this
    exact lt_irrefl _ this
  · intro e he
    rcases List.mem_append.1 he with h1 | h1
    · exact Nat.lt_succ_of_lt (h.2.2.2.2 e h1)
    · simp only [List.mem_singleton] at h1
      rw [h1]
      exact Nat.lt_succ_self _

theorem inv_popKey {s : KvState K V} (h : Inv s) {k : K} {t : KvState K V}
    (hok : popKey s k = .ok t) : Inv t := by
  cases hf : mapFind s.iters k with
  | none =>
    rw [popKey] at hok
    rw [hf] at hok
    exact absurd hok (by simp)
  | some b =>
    have hbb := h.1 _ (mem_of_mapFind_eq_some hf)
    cases b with
    | nil => exact absurd rfl hbb.2
    | cons i rest =>
      have hbq : bucketOf s.queue k = i :: rest := hbb.1.symm
      have hik : i ∈ bucketOf s.queue k := by
        rw [hbq]
        exact List.mem_cons_self _ _
      rw [popKey] at hok
      rw [hf] at hok
      replace hok := Except.ok.inj hok
      rw [← hok]
      by_cases hrest : rest = []
      · subst hrest
        rw [if_pos rfl]
        refine inv_of_char ?_ ?_ ?_ ?_
        · exact List.Pairwise.sublist mapEraseKey_fst_sublist h.2.2.1
        · intro j
          by_cases hj : j = k
          · subst hj
            have hb0 : bucketOf (eraseId s.queue i) j = [] :=
              eraseId_bucketOf_self h.2.2.2.1 hbq
            refine ⟨fun _ => mapFind_mapEraseKey_self (inv_nodup_fst h), ?_⟩
            intro hne
            exact absurd hb0 hne
          · rw [mapFind_mapEraseKey_other hj,
              eraseId_bucketOf_other h.2.2.2.1 hik hj]
            exact inv_char h j
        · exact ((List.filter_sublist _).map _).nodup h.2.2.2.1
        · intro e he
          exact h.2.2.2.2 e (List.mem_of_mem_filter he)
      · rw [if_neg hrest]
        refine inv_of_char ?_ ?_ ?_ ?_
        · rw [mapSetBucket_fst]
          exact h.2.2.1
        · intro j
          by_cases hj : j = k
          · subst hj
            have hbr : bucketOf (eraseId s.queue i) j = rest :=
              eraseId_bucketOf_self h.2.2.2.1 hbq
            rw [hbr, mapFind_mapSetBucket_self, hf]
            exact ⟨fun hr => absurd hr hrest, fun _ => rfl⟩
          · rw [mapFind_mapSetBucket_other hj,
              eraseId_bucketOf_other h.2.2.2.1 hik hj]
            exact inv_char h j
        · exact ((List.filter_sublist _).map _).nodup h.2.2.2.1
        · intro e he
          exact h.2.2.2.2 e (List.mem_of_mem_filter he)

theorem foldl_spliceToEnd {bs : List (Entry K V)} {q : List (Entry K V)}
    (hq : (q.map fun e => e.id).Nodup)
    (hbs : (bs.map fun e => e.id).Nodup)
    (hsub : ∀ b ∈ bs, b ∈ q) :
    (bs.map fun e => e.id).foldl spliceToEnd q =
      (q.filter fun e => decide (e.id ∉ bs.map fun x => x.id)) ++ bs := by
  induction bs generalizing q with
  | nil => simp
  | cons b bs' ih =>
    simp only [List.map_cons, List.nodup_cons] at hbs
    simp only [List.map_cons, List.foldl_cons]
    have hbq : b ∈ q := hsub b (List.mem_cons_self _ _)
    have hstep : spliceToEnd q b.id =
        (q.filter fun e => decide (e.id ≠ b.id)) ++ [b] := by
      rw [spliceToEnd, filter_id_eq_singleton hq hbq]
    rw [hstep]
    have hq1nd : (((q.filter fun e => decide (e.id ≠ b.id)) ++ [b]).map
        fun e => e.id).Nodup := by
      rw [List.map_append, List.nodup_append]
      refine ⟨((List.filter_sublist q).map _).nodup hq, by simp, ?_⟩
      intro a ha hb2
      simp only [List.map_cons, List.map_nil, List.mem_singleton] at hb2
      obtain ⟨x, hx, hxa⟩ := List.mem_map.1 ha
      have hxne := (List.mem_filter.1 hx).2
      simp only [decide_eq_true_eq] at hxne
      exact hxne (hxa.trans hb2)
    have hsub' : ∀ x ∈ bs', x ∈ (q.filter fun e => decide (e.id ≠ b.id)) ++ [b] := by
      intro x hx
      refine List.mem_append_left _ (List.mem_filter.2
        ⟨hsub x (List.mem_cons_of_mem _ hx), ?_⟩)
      simp only [decide_eq_true_eq]
      intro hxi
      exact hbs.1 (by rw [← hxi]; exact List.mem_map.2 ⟨x, hx, rfl⟩)
    rw [ih hq1nd hbs.2 hsub']
    rw [List.filter_append]
    have hb1 : (([b] : List (Entry K V)).filter
        fun e => decide (e.id ∉ bs'.map fun x => x.id)) = [b] := by
      rw [List.filter_eq_self]
      intro a ha
      simp only [List.mem_singleton] at ha
      rw [ha]
      simp only [decide_eq_true_eq]
      exact hbs.1
    rw [hb1, List.filter_filter]
    have hcong : (q.filter fun a =>
          decide (a.id ∉ bs'.map fun x => x.id) && decide (a.id ≠ b.id)) =
        q.filter fun e => decide (e.id ∉ (b.id :: bs'.map fun x => x.id)) := by
      refine List.filter_congr ?_
      intro x _
      by_cases h1 : x.id = b.id <;> by_cases h2 : x.id ∈ bs'.map fun x => x.id <;>
        simp [h1, h2]
    rw [hcong, List.append_assoc, List.singleton_append]

theorem moveToBack_ok {s : KvState K V} (h : Inv s) {k : K}
    (hb : bucketOf s.queue k ≠ []) :
    moveToBack s k = .ok ⟨(s.queue.filter fun e => decide (e.key ≠ k)) ++
      (s.queue.filter fun e => decide (e.key = k)), s.iters, s.nextId⟩ := by
  rw [moveToBack]
  rw [inv_find_some h hb]
  show Except.ok (KvState.mk ((bucketOf s.queue k).foldl spliceToEnd s.queue)
    s.iters s.nextId) = _
  have hbs : bucketOf s.queue k =
      (s.queue.filter fun e => decide (e.key = k)).map fun e => e.id := rfl
  have hbsnd : (((s.queue.filter fun e => decide (e.key = k))).map
      fun e => e.id).Nodup :=
    ((List.filter_sublist _).map _).nodup h.2.2.2.1
  have hsubs : ∀ b ∈ s.queue.filter fun e => decide (e.key = k), b ∈ s.queue :=
    fun b hb2 => List.mem_of_mem_filter hb2
  rw [hbs, foldl_spliceToEnd h.2.2.2.1 hbsnd hsubs]
  have hfeq : (s.queue.filter fun e =>
      decide (e.id ∉ (s.queue.filter fun x => decide (x.key = k)).map
        fun x => x.id)) = s.queue.filter fun e => decide (e.key ≠ k) := by
    refine List.filter_congr ?_
    intro e he
    by_cases hek : e.key = k
    · have : e.id ∈ (s.queue.filter fun x => decide (x.key = k)).map
          fun x => x.id :=
        List.mem_map.2 ⟨e, List.mem_filter.2 ⟨he, by simp [hek]⟩, rfl⟩
      simp [this, hek]
    · have : e.id ∉ (s.queue.filter fun x => decide (x.key = k)).map
          fun x => x.id := by
        intro hmem
        obtain ⟨x, hx, hxe⟩ := List.mem_map.1 hmem
        have hxq := List.mem_of_mem_filter hx
        have hxk := (List.mem_filter.1 hx).2
        simp only [decide_eq_true_eq] at hxk
        have : x = e := entry_unique h.2.2.2.1 hxq he hxe
        rw [this] at hxk
        exact hek hxk
      simp [this, hek]
  rw [hfeq]

theorem moveSplit_perm (q : List (Entry K V)) (k : K) :
    ((q.filter fun e => decide (e.key ≠ k)) ++
      (q.filter fun e => decide (e.key = k))).Perm q := by
  have h1 : (q.filter fun e => decide (e.key ≠ k)) =
      q.filter fun e => !decide (e.key = k) := by
    refine List.filter_congr ?_
    intro x _
    by_cases h : x.key = k <;> simp [h]
  rw [h1]
  exact (List.perm_append_comm).trans
    (List.filter_append_perm (fun e => decide (e.key = k)) q)

theorem bucketOf_moveSplit {q : List (Entry K V)} (k j : K) :
    bucketOf ((q.filter fun e => decide (e.key ≠ k)) ++
      (q.filter fun e => decide (e.key = k))) j = bucketOf q j := by
  rw [bucketOf_append]
  by_cases hj : j = k
  · subst hj
    have h1 : bucketOf (q.filter fun e => decide (e.key ≠ j)) j = [] := by
      rw [bucketOf_eq_nil_iff]
      intro e he
      have := (List.mem_filter.1 he).2
      simpa using this
    have h2 : bucketOf (q.filter fun e => decide (e.key = j)) j = bucketOf q j := by
      rw [bucketOf, List.filter_filter]
      have : (q.filter fun a => decide (a.key = j) && decide (a.key = j)) =
          q.filter fun a => decide (a.key = j) := by
        refine List.filter_congr ?_
        intro x _
        by_cases h : x.key = j <;> simp [h]
      rw [this]
      rfl
    rw [h1, h2, List.nil_append]
  · have h1 : bucketOf (q.filter fun e => decide (e.key ≠ k)) j = bucketOf q j := by
      rw [bucketOf, List.filter_filter]
      have : (q.filter fun a => decide (a.key = j) && decide (a.key ≠ k)) =
          q.filter fun a => decide (a.key = j) := by
        refine List.filter_congr ?_
        intro x _
        by_cases h : x.key = j
        · have : x.key ≠ k := by rw [h]; exact hj
          simp [h, this, hj]
        · simp [h]
      rw [this]
      rfl
    have h2 : bucketOf (q.filter fun e => decide (e.key = k)) j = [] := by
      rw [bucketOf_eq_nil_iff]
      intro e he
      have := (List.mem_filter.1 he).2
      simp only [decide_eq_true_eq] at this
      rw [this]
      exact Ne.symm hj
    rw [h1, h2, List.append_nil]

theorem inv_moveToBack {s : KvState K V} (h : Inv s) {k : K} {t : KvState K V}
    (hok : moveToBack s k = .ok t) : Inv t := by
  cases hf : mapFind s.iters k with
  | none =>
    rw [moveToBack] at hok
    rw [hf] at hok
    exact absurd hok (by simp)
  | some b =>
    have hbb := h.1 _ (mem_of_mapFind_eq_some hf)
    have hb : bucketOf s.queue k ≠ [] := by
      rw [← hbb.1]
      exact hbb.2
    rw [moveToBack_ok h hb] at hok
    replace hok := Except.ok.inj hok
    rw [← hok]
    have hperm := moveSplit_perm s.queue k
    refine inv_of_char h.2.2.1 ?_ ?_ ?_
    · intro j
      rw [bucketOf_moveSplit]
      exact inv_char h j
    · exact ((hperm.map fun e => e.id).nodup_iff).2 h.2.2.2.1
    · intro e he
      exact h.2.2.2.2 e (hperm.subset he)

/-!
Lemma layer, part 5: the clone (fresh nodes plus index rebuild) is correct.
-/

theorem renumberFrom_map_kv {q : List (Entry K V)} {base : Nat} :
    (renumberFrom base q).map (fun e => (e.key, e.val)) =
      q.map fun e => (e.key, e.val) := by
  induction q generalizing base with
  | nil => rfl
  | cons e q' ih => simp [renumberFrom, ih]

theorem renumberFrom_map_key {q : List (Entry K V)} {base : Nat} :
    (renumberFrom base q).map (fun e => e.key) = q.map fun e => e.key := by
  induction q generalizing base with
  | nil => rfl
  | cons e q' ih => simp [renumberFrom, ih]

theorem renumberFrom_length {q : List (Entry K V)} {base : Nat} :
    (renumberFrom base q).length = q.length := by
  induction q generalizing base with
  | nil => rfl
  | cons e q' ih => simp [renumberFrom, ih]

theorem renumberFrom_id_ge {q : List (Entry K V)} {base : Nat} :
    ∀ e ∈ renumberFrom base q, base ≤ e.id := by
  induction q generalizing base with
  | nil => simp [renumberFrom]
  | cons e q' ih =>
    intro x hx
    rcases List.mem_cons.1 hx with h | h
    · rw [h]
    · exact le_trans (Nat.le_succ base) (ih x h)

theorem renumberFrom_id_lt {q : List (Entry K V)} {base : Nat} :
    ∀ e ∈ renumberFrom base q, e.id < base + q.length := by
  induction q generalizing base with
  | nil => simp [renumberFrom]
  | cons e q' ih =>
    intro x hx
    rcases List.mem_cons.1 hx with h | h
    · rw [h]
      simp only [List.length_cons]
      omega
    · have := ih x h
      simp only [List.length_cons]
      omega

theorem renumberFrom_id_nodup {q : List (Entry K V)} {base : Nat} :
    ((renumberFrom base q).map fun e => e.id).Nodup := by
  induction q generalizing base with
  | nil => simp [renumberFrom]
  | cons e q' ih =>
    simp only [renumberFrom, List.map_cons, List.nodup_cons]
    refine ⟨?_, ih⟩
    intro hmem
    obtain ⟨x, hx, hxb⟩ := List.mem_map.1 hmem
    have := renumberFrom_id_ge x hx
    omega

theorem bucketOf_length_renumberFrom {q : List (Entry K V)} {base : Nat} {k : K} :
    (bucketOf (renumberFrom base q) k).length = (bucketOf q k).length := by
  induction q generalizing base with
  | nil => rfl
  | cons e q' ih =>
    show (bucketOf ((⟨base, e.key, e.val⟩ : Entry K V) ::
      renumberFrom (base + 1) q') k).length = _
    rw [bucketOf_cons, bucketOf_cons]
    by_cases he : e.key = k
    · rw [if_pos (show (⟨base, e.key, e.val⟩ : Entry K V).key = k from he),
        if_pos he]
      simp only [List.length_cons]
      rw [ih]
    · rw [if_neg (show ¬ (⟨base, e.key, e.val⟩ : Entry K V).key = k from he),
        if_neg he]
      exact ih

theorem rebuildFold_fst {rest : List (Entry K V)} {m : List (K × List Nat)} :
    ((rest.foldl (fun m e => rebuildStep m e.key e.id) m).map Prod.fst) =
      m.map Prod.fst := by
  induction rest generalizing m with
  | nil => rfl
  | cons e rest' ih =>
    rw [List.foldl_cons, ih]
    cases hf : mapFind m e.key with
    | none => rw [rebuildStep, hf]
    | some b =>
      rw [rebuildStep, hf]
      exact mapSetBucket_fst

theorem rebuildFold_char {rest : List (Entry K V)} {m : List (K × List Nat)}
    (D A : K → List Nat)
    (hfind : ∀ k, k ∈ rest.map (fun e => e.key) →
      mapFind m k = some (D k ++ A k))
    (hlen : ∀ k, (D k).length = (bucketOf rest k).length) :
    (∀ k, k ∈ rest.map (fun e => e.key) →
      mapFind (rest.foldl (fun m e => rebuildStep m e.key e.id) m) k =
        some (A k ++ bucketOf rest k)) ∧
    (∀ k, k ∉ rest.map (fun e => e.key) →
      mapFind (rest.foldl (fun m e => rebuildStep m e.key e.id) m) k =
        mapFind m k) := by
  induction rest generalizing m D A with
  | nil =>
    constructor
    · intro k hk
      simp at hk
    · intro k _
      rfl
  | cons e rest' ih =>
    have hlen_e : (D e.key).length = (bucketOf rest' e.key).length + 1 := by
      have := hlen e.key
      rw [bucketOf_cons, if_pos rfl] at this
      simpa using this
    obtain ⟨d, D', hD⟩ : ∃ d D', D e.key = d :: D' := by
      cases hDe : D e.key with
      | nil =>
        rw [hDe] at hlen_e
        simp at hlen_e
      | cons d D' => exact ⟨d, D', rfl⟩
    have hfe : mapFind m e.key = some (D e.key ++ A e.key) :=
      hfind e.key (by simp)
    have hstep : rebuildStep m e.key e.id =
        mapSetBucket m e.key ((D e.key ++ A e.key).tail ++ [e.id]) := by
      rw [rebuildStep, hfe]
    have htail : (D e.key ++ A e.key).tail = D' ++ A e.key := by
      rw [hD]
      rfl
    have hfind1 : ∀ k, k ∈ rest'.map (fun e => e.key) →
        mapFind (rebuildStep m e.key e.id) k =
          some ((fun k => if k = e.key then D' else D k) k ++
            (fun k => if k = e.key then A e.key ++ [e.id] else A k) k) := by
      intro k hk
      by_cases hke : k = e.key
      · subst hke
        rw [hstep, mapFind_mapSetBucket_self, hfe, htail]
        simp [List.append_assoc]
      · rw [hstep, mapFind_mapSetBucket_other hke,
          hfind k (by simp only [List.map_cons]; exact List.mem_cons_of_mem _ hk)]
        simp [hke]
    have hlen1 : ∀ k, ((fun k => if k = e.key then D' else D k) k).length =
        (bucketOf rest' k).length := by
      intro k
      by_cases hke : k = e.key
      · subst hke
        simp only [if_pos rfl]
        have h2 : (d :: D').length = (bucketOf rest' e.key).length + 1 := by
          rw [← hD]
          exact hlen_e
        simpa using h2
      · simp only [if_neg hke]
        have h2 := hlen k
        have hek : ¬ (e.key = k) := fun h3 => hke h3.symm
        rw [bucketOf_cons, if_neg hek] at h2
        exact h2
    obtain ⟨ihin, ihout⟩ := ih _ _ hfind1 hlen1
    constructor
    · intro k hk
      simp only [List.foldl_cons]
      by_cases hk' : k ∈ rest'.map (fun e => e.key)
      · rw [ihin k hk']
        by_cases hke : k = e.key
        · subst hke
          rw [bucketOf_cons, if_pos rfl]
          simp [List.append_assoc]
        · have hek : ¬ (e.key = k) := fun h3 => hke h3.symm
          rw [bucketOf_cons, if_neg hek]
          simp [hke]
      · have hke : k = e.key := by
          simp only [List.map_cons] at hk
          rcases List.mem_cons.1 hk with h | h
          · exact h
          · exact absurd h hk'
        subst hke
        rw [ihout _ hk', hstep, mapFind_mapSetBucket_self, hfe, htail]
        have hb0 : bucketOf rest' e.key = [] := by
          by_contra hne
          exact hk' (mem_map_key_iff_bucketOf_ne_nil.2 hne)
        have hD'0 : D' = [] := by
          have h2 := hlen1 e.key
          simp only [if_pos rfl] at h2
          rw [hb0] at h2
          simpa using h2
        rw [hD'0, bucketOf_cons, if_pos rfl, hb0]
        simp
    · intro k hk
      have hk1 : k ∉ rest'.map (fun e => e.key) := by
        intro h
        exact hk (by simp only [List.map_cons]; exact List.mem_cons_of_mem _ h)
      have hke : k ≠ e.key := by
        intro h
        exact hk (by simp [h])
      simp only [List.foldl_cons]
      rw [ihout k hk1, hstep, mapFind_mapSetBucket_other hke]

theorem inv_cloneState {s : KvState K V} (h : Inv s) : Inv (cloneState s) := by
  show Inv ⟨renumberFrom 0 s.queue,
    (renumberFrom 0 s.queue).foldl (fun m e => rebuildStep m e.key e.id) s.iters,
    s.queue.length⟩
  have hkeys : (renumberFrom 0 s.queue).map (fun e => e.key) =
      s.queue.map fun e => e.key := renumberFrom_map_key
  have hfind : ∀ k, k ∈ (renumberFrom 0 s.queue).map (fun e => e.key) →
      mapFind s.iters k = some (bucketOf s.queue k ++ []) := by
    intro k hk
    rw [hkeys] at hk
    rw [List.append_nil]
    exact inv_find_some h (mem_map_key_iff_bucketOf_ne_nil.1 hk)
  have hlen : ∀ k, (bucketOf s.queue k).length =
      (bucketOf (renumberFrom 0 s.queue) k).length :=
    fun k => (bucketOf_length_renumberFrom).symm
  obtain ⟨hin, hout⟩ := rebuildFold_char (fun k => bucketOf s.queue k)
    (fun _ => []) hfind hlen
  refine inv_of_char ?_ ?_ ?_ ?_
  · rw [rebuildFold_fst]
    exact h.2.2.1
  · intro k
    by_cases hk : k ∈ (renumberFrom 0 s.queue).map fun e => e.key
    · have hbne : bucketOf (renumberFrom 0 s.queue) k ≠ [] :=
        mem_map_key_iff_bucketOf_ne_nil.1 hk
      refine ⟨fun hb => absurd hb hbne, fun _ => ?_⟩
      rw [hin k hk]
      rfl
    · have hb0 : bucketOf (renumberFrom 0 s.queue) k = [] := by
        by_contra hne
        exact hk (mem_map_key_iff_bucketOf_ne_nil.2 hne)
      refine ⟨fun _ => ?_, fun hne => absurd hb0 hne⟩
      rw [hout k hk]
      apply inv_find_none h
      rw [bucketOf_eq_nil_iff]
      intro e he hek
      exact hk (by rw [hkeys]; exact List.mem_map.2 ⟨e, he, hek⟩)
  · exact renumberFrom_id_nodup
  · intro e he
    have := renumberFrom_id_lt e he
    simpa using this

theorem cloneState_find {s : KvState K V} (h : Inv s) (k : K) :
    mapFind (cloneState s).iters k =
      if bucketOf (cloneState s).queue k = [] then none
      else some (bucketOf (cloneState s).queue k) := by
  have hc := inv_cloneState h
  by_cases hb : bucketOf (cloneState s).queue k = []
  · rw [if_pos hb]
    exact inv_find_none hc hb
  · rw [if_neg hb]
    exact inv_find_some hc hb

theorem obsEq_refl (s : KvState K V) : ObsEq s s :=
  ⟨rfl, rfl, fun _ => rfl, rfl⟩

theorem obsEq_cloneState {s : KvState K V} (h : Inv s) :
    ObsEq (cloneState s) s := by
  have hc := inv_cloneState h
  refine ⟨?_, ?_, ?_, ?_⟩
  · show (renumberFrom 0 s.queue).map (fun e => (e.key, e.val)) = _
    exact renumberFrom_map_kv
  · show (renumberFrom 0 s.queue).length = s.queue.length
    exact renumberFrom_length
  · intro k
    rw [count_eq_length_bucketOf hc, count_eq_length_bucketOf h]
    show (bucketOf (renumberFrom 0 s.queue) k).length = _
    exact bucketOf_length_renumberFrom
  · show ((renumberFrom 0 s.queue).foldl
      (fun m e => rebuildStep m e.key e.id) s.iters).map Prod.fst = _
    exact rebuildFold_fst

/-!
Lemma layer, part 6: reachable states, bucket-length sums, and the
error conditions of each operation.
-/

/-- Container states reachable by public operations: default construction,
`push`, `pop(k)` (`pop()` delegates to it), `move_to_back`, `clear` (which
installs a fresh empty state, i.e. `emptyKv` again), and the deep clone
performed by `copy_if_needed` / `create_copy` before a divergent mutation. -/
inductive Reachable : KvState K V → Prop where
  | emptyR : Reachable emptyKv
  | pushR (s : KvState K V) (k : K) (v : V) :
      Reachable s → Reachable (push s k v)
  | popR (s : KvState K V) (k : K) (t : KvState K V) :
      Reachable s → popKey s k = .ok t → Reachable t
  | moveR (s : KvState K V) (k : K) (t : KvState K V) :
      Reachable s → moveToBack s k = .ok t → Reachable t
  | cloneR (s : KvState K V) : Reachable s → Reachable (cloneState s)

theorem inv_of_reachable {s : KvState K V} (h : Reachable s) : Inv s := by
  induction h with
  | emptyR => exact inv_emptyKv
  | pushR s k v _ ih => exact inv_push ih k v
  | popR s k t _ hok ih => exact inv_popKey ih hok
  | moveR s k t _ hok ih => exact inv_moveToBack ih hok
  | cloneR s _ ih => exact inv_cloneState ih

theorem sum_map_add_distrib {ks : List K} {f g : K → Nat} :
    (ks.map fun k => f k + g k).sum = (ks.map f).sum + (ks.map g).sum := by
  induction ks with
  | nil => rfl
  | cons k ks ih =>
    simp only [List.map_cons, List.sum_cons, ih]
    omega

theorem sum_indicator_zero {ks : List K} {a : K} (ha : a ∉ ks) :
    (ks.map fun k => if a = k then 1 else 0).sum = 0 := by
  induction ks with
  | nil => rfl
  | cons k ks ih =>
    have hak : a ≠ k := fun he => ha (he ▸ List.mem_cons_self _ _)
    have hks : a ∉ ks := fun h => ha (List.mem_cons_of_mem _ h)
    simp [hak, ih hks]

theorem sum_indicator_one {ks : List K} (hnd : ks.Nodup) {a : K} (ha : a ∈ ks) :
    (ks.map fun k => if a = k then 1 else 0).sum = 1 := by
  induction ks with
  | nil => simp at ha
  | cons k ks ih =>
    simp only [List.nodup_cons] at hnd
    rcases List.mem_cons.1 ha with h | h
    · rw [← h]
      simp [sum_indicator_zero (show a ∉ ks from fun hx => hnd.1 (h ▸ hx))]
    · have hak : a ≠ k := fun he => hnd.1 (he ▸ h)
      simp [hak, ih hnd.2 h]

theorem sum_bucket_lengths {q : List (Entry K V)} {ks : List K}
    (hnd : ks.Nodup) (hcov : ∀ e ∈ q, e.key ∈ ks) :
    (ks.map fun k => (bucketOf q k).length).sum = q.length := by
  induction q with
  | nil => simp [bucketOf]
  | cons e q' ih =>
    have hcov' : ∀ x ∈ q', x.key ∈ ks := fun x hx =>
      hcov x (List.mem_cons_of_mem _ hx)
    have hsplit : (ks.map fun k => (bucketOf (e :: q') k).length) =
        ks.map fun k => (if e.key = k then 1 else 0) + (bucketOf q' k).length := by
      refine List.map_congr_left ?_
      intro k _
      rw [bucketOf_cons]
      by_cases he : e.key = k
      · simp only [he, if_pos rfl, List.length_cons, if_true]
        omega
      · simp [he]
    rw [hsplit, sum_map_add_distrib,
      sum_indicator_one hnd (hcov e (List.mem_cons_self _ _)), ih hcov']
    simp [Nat.add_comm]

theorem inv_sum_buckets {s : KvState K V} (h : Inv s) :
    (s.iters.map fun p => p.2.length).sum = s.queue.length := by
  have h1 : s.iters.map (fun p => p.2.length) =
      s.iters.map fun p => (bucketOf s.queue p.1).length := by
    refine List.map_congr_left ?_
    intro p hp
    rw [(h.1 p hp).1]
  have h2 : s.iters.map (fun p => (bucketOf s.queue p.1).length) =
      (s.iters.map Prod.fst).map fun k => (bucketOf s.queue k).length := by
    rw [List.map_map]
    rfl
  rw [h1, h2]
  exact sum_bucket_lengths (inv_nodup_fst h) h.2.1

theorem popKey_error_iff {s : KvState K V} (h : Inv s) (k : K) (e : Err) :
    popKey s k = .error e ↔ (e = .keyNotFound ∧ count s k = 0) := by
  by_cases hb : bucketOf s.queue k = []
  · rw [popKey]
    rw [inv_find_none h hb, count_eq_length_bucketOf h, hb]
    constructor
    · intro he
      exact ⟨(Except.error.inj he).symm, rfl⟩
    · intro ⟨he, _⟩
      rw [he]
  · cases hbq : bucketOf s.queue k with
    | nil => exact absurd hbq hb
    | cons i rest =>
      rw [popKey]
      rw [inv_find_some h hb, hbq]
      constructor
      · intro he
        exact absurd he (by simp)
      · intro ⟨_, hc⟩
        rw [count_eq_length_bucketOf h, hbq] at hc
        simp at hc

theorem moveToBack_error_iff {s : KvState K V} (h : Inv s) (k : K) (e : Err) :
    moveToBack s k = .error e ↔ (e = .keyNotFound ∧ count s k = 0) := by
  by_cases hb : bucketOf s.queue k = []
  · rw [moveToBack]
    rw [inv_find_none h hb, count_eq_length_bucketOf h, hb]
    constructor
    · intro he
      exact ⟨(Except.error.inj he).symm, rfl⟩
    · intro ⟨he, _⟩
      rw [he]
  · rw [moveToBack]
    rw [inv_find_some h hb, count_eq_length_bucketOf h]
    constructor
    · intro he
      exact absurd he (by simp)
    · intro ⟨_, hc⟩
      exact absurd (List.length_eq_zero.1 hc) hb

theorem find?_key_eq_head?_filter {q : List (Entry K V)} {k : K} :
    q.find? (fun e => decide (e.key = k)) =
      (q.filter fun e => decide (e.key = k)).head? := by
  induction q with
  | nil => rfl
  | cons e q' ih =>
    by_cases he : e.key = k
    · rw [List.find?_cons_of_pos _ (by simpa using he),
        List.filter_cons, if_pos (by simpa using he)]
      rfl
    · rw [List.find?_cons_of_neg _ (by simpa using he),
        List.filter_cons, if_neg (by simpa using he), ih]

theorem entryById_of_mem {q : List (Entry K V)}
    (hnd : (q.map fun e => e.id).Nodup) {e : Entry K V} (he : e ∈ q) :
    entryById q e.id = some e := by
  induction q with
  | nil => simp at he
  | cons x q' ih =>
    simp only [List.map_cons, List.nodup_cons] at hnd
    by_cases hx : x.id = e.id
    · have hxe : x = e := by
        rcases List.mem_cons.1 he with h | h
        · exact h.symm
        · exact absurd (by rw [hx]; exact List.mem_map.2 ⟨e, h, rfl⟩) hnd.1
      rw [entryById, List.find?_cons_of_pos _ (by simpa using hx), hxe]
    · have heq' : e ∈ q' := by
        rcases List.mem_cons.1 he with h | h
        · exact absurd (congrArg Entry.id h.symm) hx
        · exact h
      rw [entryById, List.find?_cons_of_neg _ (by simpa using hx)]
      exact ih hnd.2 heq'

theorem firstC_of_inv {s : KvState K V} (h : Inv s) {k : K}
    (hb : bucketOf s.queue k ≠ []) :
    ∃ e, s.queue.find? (fun e => decide (e.key = k)) = some e ∧
      firstC s k = .ok (e.key, e.val) := by
  cases hF : s.queue.filter (fun e => decide (e.key = k)) with
  | nil => exact absurd (by rw [bucketOf, hF]; rfl) hb
  | cons f0 F' =>
    refine ⟨f0, ?_, ?_⟩
    · rw [find?_key_eq_head?_filter, hF]
      rfl
    · have hbq : bucketOf s.queue k = f0.id :: F'.map fun e => e.id := by
        rw [bucketOf, hF]
        rfl
      have hf0 : f0 ∈ s.queue :=
        List.mem_of_mem_filter (hF ▸ List.mem_cons_self f0 F')
      rw [firstC]
      rw [inv_find_some h hb, hbq]
      show (match (f0.id :: F'.map fun e => e.id).head? with
        | none => Except.error Err.keyNotFound
        | some i => match entryById s.queue i with
          | none => Except.error Err.keyNotFound
          | some e => Except.ok (e.key, e.val)) = _
      rw [List.head?_cons]
      show (match entryById s.queue f0.id with
        | none => Except.error Err.keyNotFound
        | some e => Except.ok (e.key, e.val)) = _
      rw [entryById_of_mem h.2.2.2.1 hf0]

theorem lastC_of_inv {s : KvState K V} (h : Inv s) {k : K}
    (hb : bucketOf s.queue k ≠ []) :
    ∃ e, (s.queue.filter fun e => decide (e.key = k)).getLast? = some e ∧
      lastC s k = .ok (e.key, e.val) := by
  have hFne : (s.queue.filter fun e => decide (e.key = k)) ≠ [] := by
    intro hF
    exact hb (by rw [bucketOf, hF]; rfl)
  cases hL : (s.queue.filter fun e => decide (e.key = k)).getLast? with
  | none =>
    exfalso
    have h1 : (s.queue.filter fun e => decide (e.key = k)).getLast?.isSome = true := by
      rw [List.getLast?_isSome]
      exact hFne
    rw [hL] at h1
    simp at h1
  | some eL =>
    refine ⟨eL, rfl, ?_⟩
    have hLid : (bucketOf s.queue k).getLast? = some eL.id := by
      rw [bucketOf, List.getLast?_map, hL]
      rfl
    have hmem : eL ∈ s.queue :=
      List.mem_of_mem_filter (List.mem_of_getLast?_eq_some hL)
    rw [lastC]
    rw [inv_find_some h hb]
    show (match (bucketOf s.queue k).getLast? with
      | none => Except.error Err.keyNotFound
      | some i => match entryById s.queue i with
        | none => Except.error Err.keyNotFound
        | some e => Except.ok (e.key, e.val)) = _
    rw [hLid]
    show (match entryById s.queue eL.id with
      | none => Except.error Err.keyNotFound
      | some e => Except.ok (e.key, e.val)) = _
    rw [entryById_of_mem h.2.2.2.1 hmem]

theorem firstC_error_iff {s : KvState K V} (h : Inv s) (k : K) (e : Err) :
    firstC s k = .error e ↔ (e = .keyNotFound ∧ count s k = 0) := by
  by_cases hb : bucketOf s.queue k = []
  · rw [firstC]
    rw [inv_find_none h hb, count_eq_length_bucketOf h, hb]
    constructor
    · intro he
      exact ⟨(Except.error.inj he).symm, rfl⟩
    · intro ⟨he, _⟩
      rw [he]
  · obtain ⟨e0, _, hok⟩ := firstC_of_inv h hb
    rw [hok, count_eq_length_bucketOf h]
    constructor
    · intro he
      exact absurd he (by simp)
    · intro ⟨_, hc⟩
      exact absurd (List.length_eq_zero.1 hc) hb

theorem lastC_error_iff {s : KvState K V} (h : Inv s) (k : K) (e : Err) :
    lastC s k = .error e ↔ (e = .keyNotFound ∧ count s k = 0) := by
  by_cases hb : bucketOf s.queue k = []
  · rw [lastC]
    rw [inv_find_none h hb, count_eq_length_bucketOf h, hb]
    constructor
    · intro he
      exact ⟨(Except.error.inj he).symm, rfl⟩
    · intro ⟨he, _⟩
      rw [he]
  · obtain ⟨e0, _, hok⟩ := lastC_of_inv h hb
    rw [hok, count_eq_length_bucketOf h]
    constructor
    · intro he
      exact absurd he (by simp)
    · intro ⟨_, hc⟩
      exact absurd (List.length_eq_zero.1 hc) hb

theorem popFront_error_iff {s : KvState K V} (h : Inv s) (e : Err) :
    popFront s = .error e ↔ (e = .emptyContainer ∧ size s = 0) := by
  cases hq : s.queue with
  | nil =>
    rw [popFront]
    rw [hq, size, hq]
    constructor
    · intro he
      exact ⟨(Except.error.inj he).symm, rfl⟩
    · intro ⟨he, _⟩
      rw [he]
  | cons e0 rest =>
    rw [popFront]
    rw [hq]
    have hbne : bucketOf s.queue e0.key ≠ [] :=
      bucketOf_ne_nil_of_mem (by rw [hq]; exact List.mem_cons_self _ _)
    constructor
    · intro he
      have := (popKey_error_iff h e0.key e).1 he
      rw [count_eq_length_bucketOf h] at this
      exact absurd (List.length_eq_zero.1 this.2) hbne
    · intro ⟨_, hsz⟩
      rw [size, hq] at hsz
      simp at hsz


theorem frontC_error_iff {s : KvState K V} (e : Err) :
    frontC s = .error e ↔ (e = .emptyContainer ∧ size s = 0) := by
  cases hq : s.queue with
  | nil =>
    rw [frontC]
    rw [hq, size, hq]
    constructor
    · intro he
      exact ⟨(Except.error.inj he).symm, rfl⟩
    · intro ⟨he, _⟩
      rw [he]
  | cons e0 rest =>
    rw [frontC]
    rw [hq, size, hq]
    constructor
    · intro he
      exact absurd he (by simp)
    · intro ⟨_, hsz⟩
      simp at hsz

theorem backC_error_iff {s : KvState K V} (e : Err) :
    backC s = .error e ↔ (e = .emptyContainer ∧ size s = 0) := by
  cases hq : s.queue.getLast? with
  | none =>
    have hqe : s.queue = [] := by
      cases hqq : s.queue with
      | nil => rfl
      | cons x xs =>
        rw [hqq] at hq
        have : (x :: xs).getLast?.isSome = true := by
          rw [List.getLast?_isSome]
          simp
        rw [hq] at this
        simp at this
    rw [backC]
    rw [hq, size, hqe]
    constructor
    · intro he
      exact ⟨(Except.error.inj he).symm, rfl⟩
    · intro ⟨he, _⟩
      rw [he]
  | some e0 =>
    have hne : s.queue ≠ [] := by
      intro hqe
      rw [hqe] at hq
      simp at hq
    rw [backC]
    rw [hq, size]
    constructor
    · intro he
      exact absurd he (by simp)
    · intro ⟨_, hsz⟩
      exact absurd (List.length_eq_zero.1 hsz) hne

/-!
Lemma layer, part 7: rollback of the failed push, and the error paths of the
world-level operations.
-/

theorem tryEmplace_rollback {m : List (K × List Nat)} {k : K}
    (hs : (m.map Prod.fst).Sorted (· < ·)) :
    (if (tryEmplace m k).2 = true then mapEraseKey (tryEmplace m k).1 k
     else (tryEmplace m k).1) = m := by
  by_cases hf : mapFind m k = none
  · rw [if_pos ((tryEmplace_snd_iff hs).2 hf)]
    exact mapEraseKey_tryEmplace_of_none hf
  · have hmem : k ∈ m.map Prod.fst := by
      by_contra hn
      exact hf (mapFind_eq_none_iff.2 hn)
    rw [tryEmplace_of_found hs hmem]
    simp

theorem pushCore_fails {s : KvState K V} {k : K} {v : V} {p : PushStep}
    (hsort : (s.iters.map Prod.fst).Sorted (· < ·)) (hp : p ≠ .cloneStep) :
    pushCore s k v (some p) = .error s := by
  obtain ⟨q0, m0, n0⟩ := s
  cases p with
  | cloneStep => exact absurd rfl hp
  | queueStep => rfl
  | emplaceStep =>
    simp only [pushCore, reduceCtorEq, if_false, if_true, Option.some.injEq]
    rw [List.dropLast_concat]
  | bucketStep =>
    simp only [pushCore, reduceCtorEq, if_false, if_true, Option.some.injEq]
    rw [List.dropLast_concat, tryEmplace_rollback hsort]

theorem count_eq_zero_iff_find_none {s : KvState K V} (h : Inv s) {k : K} :
    count s k = 0 ↔ mapFind s.iters k = none := by
  rw [count_eq_length_bucketOf h]
  constructor
  · intro hc
    exact inv_find_none h (List.length_eq_zero.1 hc)
  · intro hf
    rw [List.length_eq_zero]
    by_contra hb
    rw [inv_find_some h hb] at hf
    cases hf

theorem inv_mem_fst_iff {s : KvState K V} (h : Inv s) {k : K} :
    k ∈ s.iters.map Prod.fst ↔ bucketOf s.queue k ≠ [] := by
  constructor
  · intro hm
    obtain ⟨b, hb⟩ := mapFind_exists_of_mem_fst hm
    have := h.1 _ (mem_of_mapFind_eq_some hb)
    rw [← this.1]
    exact this.2
  · intro hb
    have hf := inv_find_some h hb
    by_contra hn
    rw [mapFind_eq_none_iff.2 hn] at hf
    cases hf

theorem invSide {w : World K V} (hw : InvW w) (side : Side) :
    Inv (stateOf w side) := by
  cases w with
  | shared s eA eB => exact hw
  | separate sA sB eA eB =>
    cases side with
    | A => exact hw.1
    | B => exact hw.2

theorem size_zero_iff_queue_nil {s : KvState K V} :
    size s = 0 ↔ s.queue = [] := by
  rw [size, List.length_eq_zero]

theorem wFrontMutV1_empty {w : World K V} {side : Side}
    (hq : (stateOf w side).queue = []) :
    wFrontMutV1 w side = (w, some .emptyContainer, none) := by
  cases w with
  | shared s eA eB => simp [wFrontMutV1, show s.queue = [] from hq]
  | separate sA sB eA eB =>
    cases side with
    | A => simp [wFrontMutV1, show sA.queue = [] from hq]
    | B => simp [wFrontMutV1, show sB.queue = [] from hq]

theorem wFrontMutV1_err_iff {w : World K V} {side : Side} :
    (wFrontMutV1 w side).2.1 = some Err.emptyContainer ↔
      (stateOf w side).queue = [] := by
  cases w with
  | shared s eA eB =>
    cases hq : s.queue with
    | nil => cases side <;> simp [wFrontMutV1, hq, stateOf]
    | cons e rest => cases side <;> simp [wFrontMutV1, hq, stateOf]
  | separate sA sB eA eB =>
    cases side with
    | A =>
      cases hq : sA.queue with
      | nil => simp [wFrontMutV1, hq, stateOf]
      | cons e rest => simp [wFrontMutV1, hq, stateOf]
    | B =>
      cases hq : sB.queue with
      | nil => simp [wFrontMutV1, hq, stateOf]
      | cons e rest => simp [wFrontMutV1, hq, stateOf]

theorem wBackMutV1_empty {w : World K V} {side : Side}
    (hq : (stateOf w side).queue = []) :
    wBackMutV1 w side = (w, some .emptyContainer, none) := by
  cases w with
  | shared s eA eB => simp [wBackMutV1, show s.queue = [] from hq]
  | separate sA sB eA eB =>
    cases side with
    | A => simp [wBackMutV1, show sA.queue = [] from hq, List.getLast?_nil]
    | B => simp [wBackMutV1, show sB.queue = [] from hq, List.getLast?_nil]

theorem getLast?_eq_none_iff_nil {q : List (Entry K V)} :
    q.getLast? = none ↔ q = [] := by
  cases hq : q with
  | nil => simp
  | cons e rest =>
    constructor
    · intro h
      have h1 : (e :: rest).getLast?.isSome = true := by
        rw [List.getLast?_isSome]
        simp
      rw [h] at h1
      cases h1
    · intro h
      cases h

theorem wBackMutV1_err_iff {w : World K V} {side : Side} :
    (wBackMutV1 w side).2.1 = some Err.emptyContainer ↔
      (stateOf w side).queue = [] := by
  cases w with
  | shared s eA eB =>
    cases hq : s.queue with
    | nil => cases side <;> simp [wBackMutV1, hq, stateOf]
    | cons e rest => cases side <;> simp [wBackMutV1, hq, stateOf]
  | separate sA sB eA eB =>
    cases side with
    | A =>
      cases hq : sA.queue.getLast? with
      | none =>
        simp [wBackMutV1, hq, stateOf, getLast?_eq_none_iff_nil.1 hq]
      | some e =>
        have : sA.queue ≠ [] := by
          intro h0
          rw [h0] at hq
          cases hq
        simp [wBackMutV1, hq, stateOf, this]
    | B =>
      cases hq : sB.queue.getLast? with
      | none =>
        simp [wBackMutV1, hq, stateOf, getLast?_eq_none_iff_nil.1 hq]
      | some e =>
        have : sB.queue ≠ [] := by
          intro h0
          rw [h0] at hq
          cases hq
        simp [wBackMutV1, hq, stateOf, this]

theorem wFirstMutV1_absent {w : World K V} {side : Side} {k : K}
    (hf : mapFind (stateOf w side).iters k = none) :
    wFirstMutV1 w side k = (w, some .keyNotFound, none) := by
  cases w with
  | shared s eA eB => simp [wFirstMutV1, show mapFind s.iters k = none from hf]
  | separate sA sB eA eB =>
    cases side with
    | A => simp [wFirstMutV1, show mapFind sA.iters k = none from hf]
    | B => simp [wFirstMutV1, show mapFind sB.iters k = none from hf]

theorem wFirstMutV1_err_iff {w : World K V} {side : Side} {k : K} :
    (wFirstMutV1 w side k).2.1 = some Err.keyNotFound ↔
      mapFind (stateOf w side).iters k = none := by
  cases w with
  | shared s eA eB =>
    cases hf : mapFind s.iters k with
    | none => cases side <;> simp [wFirstMutV1, hf, stateOf]
    | some b => cases side <;> simp [wFirstMutV1, hf, stateOf]
  | separate sA sB eA eB =>
    cases side with
    | A =>
      cases hf : mapFind sA.iters k with
      | none => simp [wFirstMutV1, hf, stateOf]
      | some b => simp [wFirstMutV1, hf, stateOf]
    | B =>
      cases hf : mapFind sB.iters k with
      | none => simp [wFirstMutV1, hf, stateOf]
      | some b => simp [wFirstMutV1, hf, stateOf]

theorem wLastMutV1_absent {w : World K V} {side : Side} {k : K}
    (hf : mapFind (stateOf w side).iters k = none) :
    wLastMutV1 w side k = (w, some .keyNotFound, none) := by
  cases w with
  | shared s eA eB => simp [wLastMutV1, show mapFind s.iters k = none from hf]
  | separate sA sB eA eB =>
    cases side with
    | A => simp [wLastMutV1, show mapFind sA.iters k = none from hf]
    | B => simp [wLastMutV1, show mapFind sB.iters k = none from hf]

theorem wLastMutV1_err_iff {w : World K V} {side : Side} {k : K} :
    (wLastMutV1 w side k).2.1 = some Err.keyNotFound ↔
      mapFind (stateOf w side).iters k = none := by
  cases w with
  | shared s eA eB =>
    cases hf : mapFind s.iters k with
    | none => cases side <;> simp [wLastMutV1, hf, stateOf]
    | some b => cases side <;> simp [wLastMutV1, hf, stateOf]
  | separate sA sB eA eB =>
    cases side with
    | A =>
      cases hf : mapFind sA.iters k with
      | none => simp [wLastMutV1, hf, stateOf]
      | some b => simp [wLastMutV1, hf, stateOf]
    | B =>
      cases hf : mapFind sB.iters k with
      | none => simp [wLastMutV1, hf, stateOf]
      | some b => simp [wLastMutV1, hf, stateOf]

theorem wPopKeyV1_absent {w : World K V} {side : Side} {k : K}
    (hf : mapFind (stateOf w side).iters k = none) :
    wPopKeyV1 w side k = (w, some .keyNotFound) := by
  cases w with
  | shared s eA eB => simp [wPopKeyV1, show mapFind s.iters k = none from hf]
  | separate sA sB eA eB =>
    cases side with
    | A => simp [wPopKeyV1, popKey, show mapFind sA.iters k = none from hf]
    | B => simp [wPopKeyV1, popKey, show mapFind sB.iters k = none from hf]

theorem wMoveToBackV1_absent {w : World K V} {side : Side} {k : K}
    (hf : mapFind (stateOf w side).iters k = none) :
    wMoveToBackV1 w side k = (w, some .keyNotFound) := by
  cases w with
  | shared s eA eB => simp [wMoveToBackV1, show mapFind s.iters k = none from hf]
  | separate sA sB eA eB =>
    cases side with
    | A => simp [wMoveToBackV1, moveToBack, show mapFind sA.iters k = none from hf]
    | B => simp [wMoveToBackV1, moveToBack, show mapFind sB.iters k = none from hf]

theorem wPopFrontV1_empty {w : World K V} {side : Side}
    (hq : (stateOf w side).queue = []) :
    wPopFrontV1 w side = (w, some .emptyContainer) := by
  rw [wPopFrontV1]
  rw [hq]

/-!
The claims.
-/

/-- The FIFO example of the spec: push (a,1), (b,2), (a,3) into an empty
container, with a = 0 and b = 1. -/
def fifoEx : KvState Nat Nat := push (push (push emptyKv 0 1) 1 2) 0 3

/-- C1: the claim says that a successful mutation of one member of a sharing
copy pair leaves every observable of the other member unchanged.  The code of
the first variant violates this: its `pop(k)` looks the map iterator up
before `copy_if_needed`, and after the clone it erases through that stale
iterator, mutating the ORIGINAL shared structures.  Concretely: A holds two
entries with key 0 (an invariant-satisfying state), B is a copy of A sharing
its storage; `B.pop(0)` succeeds (no error), yet A's `count(0)` drops from 2
to 1.  (The bucket `pop_front` through the stale iterator is well-defined
C++ and already corrupts A; the queue/map `erase` calls are in addition
undefined behaviour.)  The second variant refetches the iterator inside the
clone and is not affected. -/
theorem c1_cow_violation :
    Inv (⟨[⟨0, 0, 1⟩, ⟨1, 0, 2⟩], [(0, [0, 1])], 2⟩ : KvState Nat Nat) ∧
    count (stateOf (World.shared
      (⟨[⟨0, 0, 1⟩, ⟨1, 0, 2⟩], [(0, [0, 1])], 2⟩ : KvState Nat Nat)
      false false) Side.A) 0 = 2 ∧
    (wPopKeyV1 (World.shared
      (⟨[⟨0, 0, 1⟩, ⟨1, 0, 2⟩], [(0, [0, 1])], 2⟩ : KvState Nat Nat)
      false false) Side.B 0).2 = none ∧
    count (stateOf (wPopKeyV1 (World.shared
      (⟨[⟨0, 0, 1⟩, ⟨1, 0, 2⟩], [(0, [0, 1])], 2⟩ : KvState Nat Nat)
      false false) Side.B 0).1 Side.A) 0 = 1 := by
  decide

/-- C2 counterexample: the claim says that after copying an exposed
container, BOTH the source's and the copy's exposed flags are cleared.  The
copy constructor takes the source by `const` reference and cannot write its
`modifiable_from_outside` member: after `B(A)` with A exposed, A's flag is
still set. -/
theorem c2_flag_counterexample :
    exposedOf (copyCtorW (⟨[⟨0, 0, 5⟩], [(0, [0])], 1⟩ : KvState Nat Nat) true)
      Side.A = true := by
  decide

/-- C2 amended: copying an exposed container does not share storage but
eagerly installs an independent deep clone with the same observables; the
NEW copy's exposed flag is false, the SOURCE's flag is left set (the source
is a `const` reference and is not written); consequently a later write
through any mutable reference into the source's storage changes no
observable of the copy. -/
theorem c2_exposed_copy_amended (s : KvState K V) (h : Inv s) :
    copyCtorW s true = .separate s (cloneState s) true false ∧
    ObsEq (cloneState s) s ∧
    exposedOf (copyCtorW s true) Side.B = false ∧
    (∀ i v, stateOf (writeThrough (copyCtorW s true) Side.A i v) Side.B =
      cloneState s) := by
  refine ⟨by simp [copyCtorW], obsEq_cloneState h, by simp [copyCtorW, exposedOf], ?_⟩
  intro i v
  simp [copyCtorW, writeThrough, stateOf]

theorem c2_witness :
    stateOf (writeThrough (copyCtorW
        (⟨[⟨0, 0, 5⟩], [(0, [0])], 1⟩ : KvState Nat Nat) true) Side.A 0 99)
      Side.B =
    cloneState (⟨[⟨0, 0, 5⟩], [(0, [0])], 1⟩ : KvState Nat Nat) :=
  (c2_exposed_copy_amended _ (by decide)).2.2.2 0 99

/-- C3: strong exception guarantee of push, for both variants.  Whenever a
sub-step of `push(k, v)` fails with an allocation failure — the COW clone
(reached when the storage is shared, and for the second variant also when
the instance is exposed), the queue append, the map insertion, or the bucket
append — the error propagates (`.error`) and the container is left
observably identical to its pre-call state. -/
theorem c3_push_strong_guarantee (s : KvState K V) (h : Inv s)
    (isShared exposed : Bool) (k : K) (v : V) (p : PushStep) :
    ((isShared = true ∨ p ≠ .cloneStep) →
      ∃ t, pushV1 s isShared k v (some p) = .error t ∧ ObsEq t s) ∧
    ((isShared = true ∨ exposed = true ∨ p ≠ .cloneStep) →
      ∃ t, pushV2 s isShared exposed k v (some p) = .error t ∧ ObsEq t s) := by
  have hsc : ((cloneState s).iters.map Prod.fst).Sorted (· < ·) :=
    (inv_cloneState h).2.2.1
  constructor
  · intro hcase
    cases isShared with
    | true =>
      by_cases hp : p = .cloneStep
      · subst hp
        refine ⟨s, ?_, obsEq_refl s⟩
        simp [pushV1]
      · refine ⟨cloneState s, ?_, obsEq_cloneState h⟩
        simp only [pushV1, if_true]
        simp [hp]
        exact pushCore_fails hsc hp
    | false =>
      have hp : p ≠ .cloneStep := by
        rcases hcase with h1 | h1
        · cases h1
        · exact h1
      refine ⟨s, ?_, obsEq_refl s⟩
      simp only [pushV1]
      simp only [Bool.false_eq_true, if_false]
      exact pushCore_fails h.2.2.1 hp
  · intro hcase
    cases hco : isShared || exposed with
    | true =>
      by_cases hp : p = .cloneStep
      · subst hp
        refine ⟨s, ?_, obsEq_refl s⟩
        simp [pushV2, hco]
      · refine ⟨s, ?_, obsEq_refl s⟩
        simp only [pushV2, hco, if_true]
        simp only [hp, if_neg, Option.some.injEq]
        rw [pushCore_fails hsc hp]
        simp [hp]
    | false =>
      simp only [Bool.or_eq_false_iff] at hco
      have hp : p ≠ .cloneStep := by
        rcases hcase with h1 | h1 | h1
        · rw [hco.1] at h1
          cases h1
        · rw [hco.2] at h1
          cases h1
        · exact h1
      refine ⟨s, ?_, obsEq_refl s⟩
      simp only [pushV2, hco.1, hco.2, Bool.or_self, Bool.false_eq_true, if_false]
      exact pushCore_fails h.2.2.1 hp

theorem c3_witness :
    (pushV1 (emptyKv : KvState Nat Nat) true 0 5 (some PushStep.queueStep)).isOk
      = false := by
  obtain ⟨t, ht, _⟩ :=
    (c3_push_strong_guarantee (emptyKv : KvState Nat Nat) (by decide) true false
      0 5 PushStep.queueStep).1 (Or.inl rfl)
  rw [ht]
  rfl

/-- C4: in every state reachable by the public operations (including the
clone built on first divergent mutation), every bucket stored in the key
index is non-empty and lists exactly the queue positions of its key's
entries in queue order, the bucket lengths sum to the queue length, and
`count(k)` equals the bucket length (0 for an absent key). -/
theorem c4_structural_invariant (s : KvState K V) (h : Reachable s) :
    (∀ k b, mapFind s.iters k = some b → b ≠ [] ∧ b = bucketOf s.queue k) ∧
    ((s.iters.map fun p => p.2.length).sum = s.queue.length) ∧
    (∀ k, count s k = (bucketOf s.queue k).length) := by
  have hi := inv_of_reachable h
  refine ⟨?_, inv_sum_buckets hi, fun k => count_eq_length_bucketOf hi k⟩
  intro k b hf
  have hp := hi.1 _ (mem_of_mapFind_eq_some hf)
  exact ⟨hp.2, hp.1⟩

theorem c4_witness :
    count (push (emptyKv : KvState Nat Nat) 0 5) 0 =
      (bucketOf (push (emptyKv : KvState Nat Nat) 0 5).queue 0).length :=
  (c4_structural_invariant _
    (Reachable.pushR _ 0 5 Reachable.emptyR)).2.2 0

/-- C5: `pop()`, `front()` and `back()` (const and mutable overloads) raise
EmptyContainer exactly when `size() == 0`; `pop(k)`, `move_to_back(k)`,
`first(k)` and `last(k)` (const and mutable overloads) raise KeyNotFound
exactly when `count(k) == 0`; `count(k)` never raises and returns 0 for a
key absent from the registry. -/
theorem c5_raises_iff (s : KvState K V) (w : World K V) (side : Side) (k : K)
    (h : Inv s) (hw : InvW w) :
    (∀ e, popFront s = .error e ↔ (e = .emptyContainer ∧ size s = 0)) ∧
    (∀ e, frontC s = .error e ↔ (e = .emptyContainer ∧ size s = 0)) ∧
    (∀ e, backC s = .error e ↔ (e = .emptyContainer ∧ size s = 0)) ∧
    (∀ e, popKey s k = .error e ↔ (e = .keyNotFound ∧ count s k = 0)) ∧
    (∀ e, moveToBack s k = .error e ↔ (e = .keyNotFound ∧ count s k = 0)) ∧
    (∀ e, firstC s k = .error e ↔ (e = .keyNotFound ∧ count s k = 0)) ∧
    (∀ e, lastC s k = .error e ↔ (e = .keyNotFound ∧ count s k = 0)) ∧
    ((wFrontMutV1 w side).2.1 = some Err.emptyContainer ↔
      size (stateOf w side) = 0) ∧
    ((wBackMutV1 w side).2.1 = some Err.emptyContainer ↔
      size (stateOf w side) = 0) ∧
    ((wFirstMutV1 w side k).2.1 = some Err.keyNotFound ↔
      count (stateOf w side) k = 0) ∧
    ((wLastMutV1 w side k).2.1 = some Err.keyNotFound ↔
      count (stateOf w side) k = 0) ∧
    (k ∉ s.iters.map Prod.fst → count s k = 0) := by
  have hws := invSide hw side
  refine ⟨fun e => popFront_error_iff h e, fun e => frontC_error_iff e,
    fun e => backC_error_iff e, fun e => popKey_error_iff h k e,
    fun e => moveToBack_error_iff h k e, fun e => firstC_error_iff h k e,
    fun e => lastC_error_iff h k e, ?_, ?_, ?_, ?_, ?_⟩
  · rw [wFrontMutV1_err_iff, size_zero_iff_queue_nil]
  · rw [wBackMutV1_err_iff, size_zero_iff_queue_nil]
  · rw [wFirstMutV1_err_iff, count_eq_zero_iff_find_none hws]
  · rw [wLastMutV1_err_iff, count_eq_zero_iff_find_none hws]
  · intro hk
    simp [count, mapFind_eq_none_iff.2 hk]

theorem c5_witness :
    ((wFrontMutV1 (World.shared (emptyKv : KvState Nat Nat) false false)
      Side.A).2.1 = some Err.emptyContainer) ↔
    size (stateOf (World.shared (emptyKv : KvState Nat Nat) false false)
      Side.A) = 0 :=
  (c5_raises_iff emptyKv (World.shared (emptyKv : KvState Nat Nat) false false)
    Side.A 0 (by decide) (by decide)).2.2.2.2.2.2.2.1

/-- C6: for every key with `count(k) > 0`, `move_to_back(k)` succeeds and
the new queue is all non-k entries in their original relative order followed
by all of k's entries as a contiguous run in their original relative order;
the size and every key's count are unchanged. -/
theorem c6_move_to_back (s : KvState K V) (k : K) (h : Inv s)
    (hk : 0 < count s k) :
    ∃ t, moveToBack s k = .ok t ∧
      t.queue = (s.queue.filter fun e => decide (e.key ≠ k)) ++
        (s.queue.filter fun e => decide (e.key = k)) ∧
      size t = size s ∧ (∀ j, count t j = count s j) := by
  have hb := (count_pos_iff h).1 hk
  refine ⟨_, moveToBack_ok h hb, rfl, ?_, fun j => rfl⟩
  show ((s.queue.filter fun e => decide (e.key ≠ k)) ++
    (s.queue.filter fun e => decide (e.key = k))).length = s.queue.length
  exact (moveSplit_perm s.queue k).length_eq

theorem c6_witness :
    (moveToBack (push (push (emptyKv : KvState Nat Nat) 0 1) 1 2) 0).map size =
      .ok (size (push (push (emptyKv : KvState Nat Nat) 0 1) 1 2)) := by
  obtain ⟨t, ht, _, hsz, _⟩ :=
    c6_move_to_back (push (push (emptyKv : KvState Nat Nat) 0 1) 1 2) 0
      (by decide) (by decide)
  rw [ht]
  simp [Except.map, hsz]

/-- C7: for every key with `count(k) > 0`, `first(k)` returns the earliest
still-present entry for k and `last(k)` the latest; pushing `(k, v)` again
makes `last(k)` return `(k, v)` while `first(k)` is unchanged. -/
theorem c7_first_last (s : KvState K V) (k : K) (v : V) (h : Inv s)
    (hk : 0 < count s k) :
    (∃ e, s.queue.find? (fun e => decide (e.key = k)) = some e ∧
      firstC s k = .ok (e.key, e.val)) ∧
    (∃ e, (s.queue.filter fun e => decide (e.key = k)).getLast? = some e ∧
      lastC s k = .ok (e.key, e.val)) ∧
    lastC (push s k v) k = .ok (k, v) ∧
    firstC (push s k v) k = firstC s k := by
  have hb := (count_pos_iff h).1 hk
  have hp := inv_push h k v
  have hqp : (push s k v).queue = s.queue ++ [⟨s.nextId, k, v⟩] := rfl
  have hbp : bucketOf (push s k v).queue k ≠ [] := by
    rw [hqp, bucketOf_append]
    simp [bucketOf_cons]
  refine ⟨firstC_of_inv h hb, lastC_of_inv h hb, ?_, ?_⟩
  · obtain ⟨eL, hL, hok⟩ := lastC_of_inv hp hbp
    rw [hqp, List.filter_append] at hL
    have hone : (([(⟨s.nextId, k, v⟩ : Entry K V)]).filter
        fun e => decide (e.key = k)) = [⟨s.nextId, k, v⟩] := by simp
    rw [hone, List.getLast?_concat] at hL
    have heL : eL = ⟨s.nextId, k, v⟩ := (Option.some.inj hL).symm
    rw [hok, heL]
  · obtain ⟨e0, hf0, hok0⟩ := firstC_of_inv h hb
    obtain ⟨e1, hf1, hok1⟩ := firstC_of_inv hp hbp
    rw [hqp, List.find?_append, hf0] at hf1
    have he1 : e0 = e1 := Option.some.inj hf1
    rw [hok1, hok0, he1]

theorem c7_witness :
    lastC (push (push (emptyKv : KvState Nat Nat) 0 1) 0 9) 0 = .ok (0, 9) :=
  (c7_first_last (push (emptyKv : KvState Nat Nat) 0 1) 0 9
    (by decide) (by decide)).2.2.1

/-- C8: the key view bounded by `k_begin()`/`k_end()` yields the key index's
keys; they are strictly ascending, duplicate-free, and are exactly the keys
with `count(k) > 0`. -/
theorem c8_key_iteration (s : KvState K V) (h : Inv s) :
    (kKeys s).Sorted (· < ·) ∧ (kKeys s).Nodup ∧
    (∀ k, k ∈ kKeys s ↔ 0 < count s k) := by
  refine ⟨h.2.2.1, inv_nodup_fst h, ?_⟩
  intro k
  simp only [kKeys]
  rw [inv_mem_fst_iff h, count_pos_iff h]

theorem c8_witness :
    (kKeys (push (emptyKv : KvState Nat Nat) 0 1)).Nodup :=
  (c8_key_iteration _ (by decide)).2.1

/-- C9: `pop()` on a non-empty container has exactly the effect of `pop(k)`
for k the key of the front entry; and on the concrete FIFO example —
push (a,1), (b,2), (a,3) with a = 0, b = 1 — `front()` returns (a,1), and
after one `pop()` it returns (b,2). -/
theorem c9_pop_delegation (s : KvState K V) (e : Entry K V)
    (rest : List (Entry K V)) (h : s.queue = e :: rest) :
    popFront s = popKey s e.key ∧
    frontC fifoEx = .ok (0, 1) ∧
    (popFront fifoEx).map frontC = .ok (.ok (1, 2)) := by
  refine ⟨?_, rfl, rfl⟩
  rw [popFront]
  rw [h]

theorem c9_witness :
    popFront fifoEx = popKey fifoEx 0 :=
  (c9_pop_delegation fifoEx ⟨0, 0, 1⟩ [⟨1, 1, 2⟩, ⟨2, 0, 3⟩] rfl).1

/-- C10: every operation that fails its precondition check — `pop`, mutable
`front`/`back` on an empty container, `pop(k)`, `move_to_back(k)`, mutable
`first(k)`/`last(k)` for an absent key — raises before any copy-on-write
clone is attempted, leaving the whole world (contents, storage sharing, and
both exposed flags) exactly as it was. -/
theorem c10_error_atomicity (w : World K V) (side : Side) (k : K)
    (hw : InvW w) :
    (size (stateOf w side) = 0 →
      wPopFrontV1 w side = (w, some .emptyContainer) ∧
      wFrontMutV1 w side = (w, some .emptyContainer, none) ∧
      wBackMutV1 w side = (w, some .emptyContainer, none)) ∧
    (count (stateOf w side) k = 0 →
      wPopKeyV1 w side k = (w, some .keyNotFound) ∧
      wMoveToBackV1 w side k = (w, some .keyNotFound) ∧
      wFirstMutV1 w side k = (w, some .keyNotFound, none) ∧
      wLastMutV1 w side k = (w, some .keyNotFound, none)) := by
  have hws := invSide hw side
  constructor
  · intro hsz
    have hq := size_zero_iff_queue_nil.1 hsz
    exact ⟨wPopFrontV1_empty hq, wFrontMutV1_empty hq, wBackMutV1_empty hq⟩
  · intro hc
    have hf := (count_eq_zero_iff_find_none hws).1 hc
    exact ⟨wPopKeyV1_absent hf, wMoveToBackV1_absent hf,
      wFirstMutV1_absent hf, wLastMutV1_absent hf⟩

theorem c10_witness :
    wPopFrontV1 (World.shared (emptyKv : KvState Nat Nat) false false) Side.A =
      (World.shared (emptyKv : KvState Nat Nat) false false,
        some Err.emptyContainer) :=
  ((c10_error_atomicity
    (World.shared (emptyKv : KvState Nat Nat) false false) Side.A 0
    (by decide)).1 (by decide)).1

end Kvfifo
